import Mathlib

/-!
Distinct products of the N × N multiplication table (src/main.c).

A shallow embedding of `main` of `src/main.c`.  The program is an MPI job:
every rank computes its chunk of the triangular enumeration of the pairs
`(i, j)` with `j ≤ i ≤ N`, sets bit `i * j` in a local array of 32-bit words,
sends the array to rank 0 in two halves, and rank 0 ORs the halves into its
own array and counts the set bits.

Conventions of the embedding.

* `unsigned long long` values are naturals reduced `% 2 ^ 64` where the source
  multiplies, subtracts or adds sizes; `unsigned int` values are reduced
  `% 2 ^ 32`.  The loop counters `i`, `j` only grow by `++` from `1` and stay
  far below `2 ^ 64`, so `++i` is `i + 1`.
* `float` is IEEE binary32 with round-to-nearest, ties-to-even.  Only three
  float operations occur in the source: the conversion of an integer, the
  quotient of two converted integers, and `floor`/`ceil` of the result.  They
  are modelled exactly, on naturals (`f32OfNat`, `f32Div`, `f32Floor`).
* A bit array is a `List Nat` of words.  An access outside the list is
  undefined behaviour in C and makes the embedded function return `none`.
* A run of `P` processes is a function of `(N, P)`: each rank's local array is
  `localMap N P r`, the coordinator's merged array is `reduce N P`, and the
  printed count is `report N P`.
-/

namespace MulTable

/-! ## binary32 arithmetic -/

/-- Position of the leading one bit, by halving at most `f` times. -/
def ilog2Aux : Nat → Nat → Nat
  | 0, _ => 0
  | f + 1, n => if n < 2 then 0 else ilog2Aux f (n / 2) + 1

/-- Floor of the binary logarithm of a positive natural. -/
def ilog2 (n : Nat) : Nat := ilog2Aux n n

/-- Round-to-nearest, ties-to-even, of the rational `num / den` to an integer:
the quotient `m`, plus one when the remainder is above half of `den`, or is
exactly half and `m` is odd. -/
def roundHalfEven (num den : Nat) : Nat :=
  let m := num / den
  let r := num % den
  if den < 2 * r ∨ (den = 2 * r ∧ m % 2 = 1) then m + 1 else m

/-- The value of `(float) x` for an unsigned integer `x`: `x` rounded to 24
significant bits.  With `e = ilog2 x - 23` the result is the multiple of
`2 ^ e` nearest to `x` (ties to the even multiple); for `x < 2 ^ 24` the
exponent is `0` and the value is `x` itself. -/
def f32OfNat (x : Nat) : Nat :=
  if x = 0 then 0
  else
    let e := ilog2 x - 23
    roundHalfEven x (2 ^ e) * 2 ^ e

/-- The binary32 quotient `a / b` of two integer-valued floats, as a pair
`(n, d)` standing for the dyadic rational `n / d`.  The exact quotient is
scaled by a power of two into `[2 ^ 23, 2 ^ 24)` (`up` doublings of the
numerator or `down` doublings of the denominator), rounded to an integer
mantissa, and scaled back. -/
def f32Div (a b : Nat) : Nat × Nat :=
  if a = 0 then (0, 1)
  else
    let la := ilog2 a
    let lb := ilog2 b
    let δ := if b * 2 ^ la ≤ a * 2 ^ lb then 0 else 1
    let up := lb + 23 + δ - la
    let down := la - (lb + 23 + δ)
    (roundHalfEven (a * 2 ^ up) (b * 2 ^ down) * 2 ^ down, 2 ^ up)

/-- The value of `floor` at a non-negative dyadic rational `n / d`. -/
def f32Floor (q : Nat × Nat) : Nat := q.1 / q.2

/-! ## Problem parameters (main.c lines 47-49) -/

/-- The constant `num_values = table_size * table_size` (a `long` product, with
two's complement wrap-around) stored in an `unsigned long long`. -/
def num_values (table_size : Nat) : Nat := (table_size * table_size) % 2 ^ 64

/-- The constant `cells = ((num_values - table_size) / 2) + table_size` in
`unsigned long long` arithmetic. -/
def cells (table_size : Nat) : Nat :=
  ((num_values table_size + (2 ^ 64 - table_size % 2 ^ 64)) % 2 ^ 64 / 2 + table_size) % 2 ^ 64

/-! ## Workload partition (main.c lines 53-72) -/

/-- The value `floor((float) cells / num_processors)` converted to
`unsigned long long`. -/
def chunk_base (table_size num_processors : Nat) : Nat :=
  f32Floor (f32Div (f32OfNat (cells table_size)) (f32OfNat num_processors)) % 2 ^ 64

/-- The entry `chunk_sizes[i]` after the loop of lines 54-60. -/
def chunk_sizes (table_size num_processors i : Nat) : Nat :=
  if i < cells table_size % num_processors then (chunk_base table_size num_processors + 1) % 2 ^ 64
  else chunk_base table_size num_processors

/-- The variable `end` of rank `process_rank` after the loop of lines 71-72:
the sum of the chunk sizes of the lower ranks. -/
def start_offset (table_size num_processors : Nat) : Nat → Nat
  | 0 => 0
  | r + 1 => (start_offset table_size num_processors r + chunk_sizes table_size num_processors r) % 2 ^ 64

/-! ## Triangular enumeration (main.c lines 75-84 and 107-111) -/

/-- One advance step: `++i; if (i == table_size + offset) { ++j; i = j; }`.
The pair is `(i, j)` = (row, column). -/
def step (table_size : Nat) (p : Nat × Nat) : Nat × Nat :=
  if p.1 + 1 = table_size + 1 then (p.2 + 1, p.2 + 1) else (p.1 + 1, p.2)

/-- The fast-forward loop `while (end > 0) { --end; ...; advance }`. -/
def fastForward (table_size : Nat) : Nat → Nat × Nat → Nat × Nat
  | 0, p => p
  | e + 1, p => fastForward table_size e (step table_size p)

/-- The pair at linear position `pos`: the result of the fast-forward loop
started at `(1, 1)` with `end = pos`. -/
def pairAt (table_size pos : Nat) : Nat × Nat := fastForward table_size pos (1, 1)

/-- The product computed at linear position `pos`. -/
def prodAt (table_size pos : Nat) : Nat := (pairAt table_size pos).1 * (pairAt table_size pos).2

/-! ## Bit arrays and the marking loop (main.c lines 9, 88-112) -/

/-- The constant
`ints_in_bitarray = ceil(ceil(num_values / 8) / sizeof(unsigned int)) + 1`.
The operand `num_values / 8` is an unsigned integer quotient, so the inner
`ceil` is the identity on it (the conversion to `double` is exact below
`2 ^ 53`); the outer `ceil` of a quarter of an integer `a` is `(a + 3) / 4`.
The result is stored in an `unsigned int`. -/
def ints_in_bitarray (table_size : Nat) : Nat :=
  ((num_values table_size / 8 + 3) / 4 + 1) % 2 ^ 32

/-- Bit `b` of the array: bit `b % 32` of word `b / 32`. -/
def testBitArr (A : List Nat) (b : Nat) : Bool := (A.getD (b / 32) 0).testBit (b % 32)

/-- The macro `SETBIT(A, k)`: `A[k/32] |= (1 << (k%32))`; `none` when word
`k / 32` is outside the array.  The shifted `1` is below `2 ^ 32`, so the OR
stays a 32-bit word. -/
def SETBIT (A : List Nat) (k : Nat) : Option (List Nat) :=
  if k / 32 < A.length then some (A.set (k / 32) (A.getD (k / 32) 0 ||| 1 <<< (k % 32)))
  else none

/-- The marking loop `while (my_chunk > 0)` of lines 97-112, by recursion on
`my_chunk`.  In the defensive branch `my_chunk` is set to `1` and decremented
after the `SETBIT`, so the loop ends there. -/
def markLoop (table_size V : Nat) : Nat → Nat → Nat → List Nat → Option (List Nat)
  | 0, _, _, A => some A
  | k + 1, i, j, A =>
    if V < (i * j) % 2 ^ 64 then SETBIT A (((i - 1) * (j - 1)) % 2 ^ 64)
    else
      match SETBIT A ((i * j) % 2 ^ 64) with
      | none => none
      | some A1 => markLoop table_size V k (step table_size (i, j)).1 (step table_size (i, j)).2 A1

/-- The local bit array of rank `process_rank` after its marking loop, started
from the zero-filled array returned by `calloc`. -/
def localMap (table_size num_processors process_rank : Nat) : Option (List Nat) :=
  markLoop table_size (num_values table_size)
    (chunk_sizes table_size num_processors process_rank)
    (pairAt table_size (start_offset table_size num_processors process_rank)).1
    (pairAt table_size (start_offset table_size num_processors process_rank)).2
    (List.replicate (ints_in_bitarray table_size) 0)

/-! ## Distributed reduction (main.c lines 114-147) -/

/-- The constant `half_size = (int) ceil((float) ints_in_bitarray / 2.0f)`:
halving a binary32 value is exact, and the `ceil` of half an integer `x` is
`(x + 1) / 2`. -/
def half_size (table_size : Nat) : Nat :=
  ((f32OfNat (ints_in_bitarray table_size) + 1) / 2) % 2 ^ 32

/-- The `len` words of `A` from word `off` on, as sent by `MPI_Send`; `none`
when the block is not inside the array. -/
def readBlock (A : List Nat) (off len : Nat) : Option (List Nat) :=
  if off + len ≤ A.length then some ((A.drop off).take len) else none

/-- The loop `for (i = 0; i < n; ++i) (A + off)[i] |= inc[i]`. -/
def orLoop (inc : List Nat) (off : Nat) : Nat → List Nat → Option (List Nat)
  | 0, A => some A
  | n + 1, A =>
    match orLoop inc off n A with
    | none => none
    | some A1 =>
      if off + n < A1.length ∧ n < inc.length then
        some (A1.set (off + n) (A1.getD (off + n) 0 ||| inc.getD n 0))
      else none

/-- The coordinator's handling of one peer (body of the loop of lines 132-147)
together with the peer's two sends (lines 119-122): the first `H` words are
received and ORed in, and when `H > 1` so are the words `H .. 2H-1`. -/
def mergePeer (H : Nat) (own peer : List Nat) : Option (List Nat) :=
  match readBlock peer 0 H with
  | none => none
  | some b1 =>
    match orLoop b1 0 H own with
    | none => none
    | some own1 =>
      if 1 < H then
        match readBlock peer H H with
        | none => none
        | some b2 => orLoop b2 H H own1
      else some own1

/-- The coordinator's array after the peers of ranks `1 .. k` have been merged. -/
def reduceUpTo (table_size num_processors : Nat) : Nat → Option (List Nat)
  | 0 => localMap table_size num_processors 0
  | k + 1 =>
    match reduceUpTo table_size num_processors k with
    | none => none
    | some own =>
      match localMap table_size num_processors (k + 1) with
      | none => none
      | some peer => mergePeer (half_size table_size) own peer

/-- The coordinator's array after the loop `for (rank = 1; rank < num_processors; ++rank)`. -/
def reduce (table_size num_processors : Nat) : Option (List Nat) :=
  reduceUpTo table_size num_processors (num_processors - 1)

/-! ## Popcount (main.c lines 152-162) -/

/-- The builtin `__builtin_popcount` on a 32-bit word: the number of set bits
among bits `0 .. 31`. -/
def popcount32 (w : Nat) : Nat := ((List.range 32).filter (fun b => w.testBit b)).length

/-- The loop `for (int i = 0; i < ints_in_bitarray; ++i)` with body
`counter += __builtin_popcount(unique_bit_map[i])`, over the array `A` of
`ints_in_bitarray` words, with the indices taken in the order `order` (the
OpenMP critical section serialises the additions in some order of the
indices).  The index is an `int` compared with an `unsigned int` bound: it has
to take every value from `0` up to the word count, so for `2 ^ 31` words or
more the increment leaves the range of `int` and the loop is undefined
(`none`). -/
def popcountLoop (A : List Nat) (order : List Nat) : Option Nat :=
  if A.length < 2 ^ 31 then
    some (order.foldl (fun counter i => (counter + popcount32 (A.getD i 0)) % 2 ^ 64) 0)
  else none

/-- The count printed by rank 0 (`counter: %llu`). -/
def report (table_size num_processors : Nat) : Option Nat :=
  match reduce table_size num_processors with
  | none => none
  | some A => popcountLoop A (List.range A.length)

/-! ## Specification-level notions -/

/-- The set of products `i * j` with `1 ≤ j ≤ i ≤ N`. -/
def products (N : Nat) : Finset Nat :=
  ((Finset.Icc 1 N ×ˢ Finset.Icc 1 N).filter (fun p => p.2 ≤ p.1)).image (fun p => p.1 * p.2)

/-- The number of distinct values in the triangular multiplication table. -/
def distinctCount (N : Nat) : Nat := (products N).card

/-! ## Auxiliary notions used in the statements and proofs -/

/-- Linear position of the first pair of column `c + 1`. -/
def colStart (N : Nat) : Nat → Nat
  | 0 => 0
  | c + 1 => colStart N c + (N - c)

/-- Number of leading words of a peer array that the coordinator merges. -/
def coverage (H : Nat) : Nat := if 1 < H then 2 * H else H

/-- Word-wise OR of the first `c` words of `peer` into `own`. -/
def orCov (c : Nat) (own peer : List Nat) : List Nat :=
  (List.range own.length).map
    (fun w => if w < c then own.getD w 0 ||| peer.getD w 0 else own.getD w 0)

/-- The loop of lines 132-147 over a list of peer arrays, in list order. -/
def mergeAll (H : Nat) : List Nat → List (List Nat) → Option (List Nat)
  | own, [] => some own
  | own, peer :: rest =>
    match mergePeer H own peer with
    | none => none
    | some own1 => mergeAll H own1 rest

/-- The number of set bits of the array: the bit indices below `32 * length`
whose bit is set. -/
def setBitCount (A : List Nat) : Nat :=
  ((List.range (32 * A.length)).filter (fun b => testBitArr A b)).length

/-! ## The whole of `main` for one process (main.c lines 20-173) -/

/-- The rank of the coordinator. -/
def ROOT : Nat := 0

/-- A line written to standard output: the usage message of line 37, the
count line of line 162, or the elapsed-time line of line 165 (its number is
not modelled). -/
inductive OutLine
  | usage
  | counter (n : Nat)
  | wallclock
  deriving DecidableEq

/-- The stages of the pipeline a process goes through: partition (lines
53-84), marking (88-112), sending (117-125), merging (127-150) and counting
(152-159). -/
inductive Phase
  | partition
  | mark
  | send
  | merge
  | count
  deriving DecidableEq

/-- What one process does in a run: the value returned by `main`, the lines it
writes, and the stages it executes, in order. -/
structure ProcResult where
  status : Nat
  out : List OutLine
  phases : List Phase
  deriving DecidableEq

/-- One process of `main`.  The argument `table_size` is the value
`atol(argv[1])` read at line 47 (a non-negative value; it is read only when
`argc ≥ 2`).  With `argc < 2` only rank `ROOT` prints the usage message and
every process returns 0 at line 41.  Otherwise a peer marks its chunk and
sends its array (one or two blocks), the coordinator prints the count and the
time; `calloc` is taken to succeed.  The result is `none` when an array is
accessed out of bounds. -/
def mainProc (argc table_size num_processors process_rank : Nat) : Option ProcResult :=
  if argc < 2 then
    some ⟨0, if process_rank = ROOT then [OutLine.usage] else [], []⟩
  else if process_rank = ROOT then
    match report table_size num_processors with
    | none => none
    | some c =>
      some ⟨0, [OutLine.counter c, OutLine.wallclock],
        [Phase.partition, Phase.mark, Phase.merge, Phase.count]⟩
  else
    match localMap table_size num_processors process_rank with
    | none => none
    | some A =>
      match readBlock A 0 (half_size table_size) with
      | none => none
      | some _ =>
        if 1 < half_size table_size then
          match readBlock A (half_size table_size) (half_size table_size) with
          | none => none
          | some _ => some ⟨0, [], [Phase.partition, Phase.mark, Phase.send]⟩
        else some ⟨0, [], [Phase.partition, Phase.mark, Phase.send]⟩

/-! ## The products computed by the marking loop -/

/-- The marking loop of lines 97-112 once more, now returning, next to the
final array, the values `product = i * j` computed at line 99, one per
iteration and in order.  The loop ends after the first product above `V`
(defensive branch) or after `my_chunk` iterations, and is `none` as soon as a
`SETBIT` leaves the array, exactly as `markLoop`. -/
def markRun (table_size V : Nat) : Nat → Nat → Nat → List Nat → Option (List Nat × List Nat)
  | 0, _, _, A => some (A, [])
  | k + 1, i, j, A =>
    if V < (i * j) % 2 ^ 64 then
      match SETBIT A (((i - 1) * (j - 1)) % 2 ^ 64) with
      | none => none
      | some A1 => some (A1, [(i * j) % 2 ^ 64])
    else
      match SETBIT A ((i * j) % 2 ^ 64) with
      | none => none
      | some A1 =>
        match markRun table_size V k (step table_size (i, j)).1 (step table_size (i, j)).2 A1 with
        | none => none
        | some res => some (res.1, (i * j) % 2 ^ 64 :: res.2)

/-- The products computed by rank `process_rank` in its marking loop on the
zero-filled array of `ints_in_bitarray` words; `none` when the loop leaves the
array. -/
def rankProducts (table_size num_processors process_rank : Nat) : Option (List Nat) :=
  match markRun table_size (num_values table_size)
      (chunk_sizes table_size num_processors process_rank)
      (pairAt table_size (start_offset table_size num_processors process_rank)).1
      (pairAt table_size (start_offset table_size num_processors process_rank)).2
      (List.replicate (ints_in_bitarray table_size) 0) with
  | none => none
  | some res => some res.2

/-! ## Further specification-level notions -/

/-- The canonical enumeration: for each column `c` from `1` to `N`, the rows
`r` from `c` to `N`, as pairs (row, column). -/
def enumeration (N : Nat) : List (Nat × Nat) :=
  (List.range' 1 N).flatMap (fun c => (List.range' c (N + 1 - c)).map (fun r => (r, c)))

/-- The invariant `1 ≤ column ≤ row ≤ N` of an enumerated pair (row, column). -/
def inTriangle (N : Nat) (p : Nat × Nat) : Prop := 1 ≤ p.2 ∧ p.2 ≤ p.1 ∧ p.1 ≤ N

/-- Quotient of `a` by `b` rounded up. -/
def ceilDiv (a b : Nat) : Nat := (a + b - 1) / b

/-- The word count of the specification: `ceil(ceil(V / 8) / 4) + 1` with both
divisions exact and rounded up. -/
def specWordCount (V : Nat) : Nat := ceilDiv (ceilDiv V 8) 4 + 1

/-! ## Lemmas on binary32 rounding -/

theorem ilog2Aux_spec (f : Nat) : ∀ n, 0 < n → n ≤ f →
    2 ^ ilog2Aux f n ≤ n ∧ n < 2 ^ (ilog2Aux f n + 1) := by
  induction f with
  | zero => intro n h0 h; omega
  | succ f ih =>
    intro n h0 h
    rw [ilog2Aux]
    by_cases h2 : n < 2
    · simp only [h2, if_true]; omega
    · simp only [h2, if_false]
      have hh := ih (n / 2) (by omega) (by omega)
      rw [pow_succ, pow_succ (n := ilog2Aux f (n / 2) + 1)]
      omega

theorem ilog2_le {n : Nat} (h : 0 < n) : 2 ^ ilog2 n ≤ n :=
  (ilog2Aux_spec n n h le_rfl).1

theorem lt_ilog2 {n : Nat} (h : 0 < n) : n < 2 ^ (ilog2 n + 1) :=
  (ilog2Aux_spec n n h le_rfl).2

theorem ilog2_lt_of_lt {n k : Nat} (h : 0 < n) (hk : n < 2 ^ k) : ilog2 n < k := by
  by_contra hc
  have h1 : 2 ^ k ≤ 2 ^ ilog2 n := Nat.pow_le_pow_right (by norm_num) (by omega)
  have h2 := ilog2_le h
  omega

theorem le_ilog2_of_le {n k : Nat} (hk : 2 ^ k ≤ n) : k ≤ ilog2 n := by
  have h0 : 0 < n := lt_of_lt_of_le (by positivity) hk
  by_contra hc
  have h1 : 2 ^ (ilog2 n + 1) ≤ 2 ^ k := Nat.pow_le_pow_right (by norm_num) (by omega)
  have h2 := lt_ilog2 h0
  omega

theorem roundHalfEven_ge (num den : Nat) : num / den ≤ roundHalfEven num den := by
  unfold roundHalfEven
  simp only
  split <;> omega

theorem roundHalfEven_le (num den : Nat) : roundHalfEven num den ≤ num / den + 1 := by
  unfold roundHalfEven
  simp only
  split <;> omega

/-- Integers below `2 ^ 24` are binary32 values: the conversion is exact. -/
theorem f32OfNat_exact {x : Nat} (h : x < 2 ^ 24) : f32OfNat x = x := by
  unfold f32OfNat
  by_cases h0 : x = 0
  · simp [h0]
  · have hl : ilog2 x < 24 := ilog2_lt_of_lt (by omega) h
    have he : ilog2 x - 23 = 0 := by omega
    simp [h0, he, roundHalfEven, Nat.mod_one]

/-- The conversion of an integer of at least `2 ^ 24` is at least `2 ^ 24`. -/
theorem f32OfNat_ge {x : Nat} (h : 2 ^ 24 ≤ x) : 2 ^ 24 ≤ f32OfNat x := by
  unfold f32OfNat
  have h0 : x ≠ 0 := by
    intro h0; subst h0; norm_num at h
  have hl : 24 ≤ ilog2 x := le_ilog2_of_le h
  simp only [h0, if_false]
  have h1 : 2 ^ ilog2 x ≤ x := ilog2_le (by omega)
  have h2 : (2:Nat) ^ ilog2 x = 2 ^ 23 * 2 ^ (ilog2 x - 23) := by
    rw [← pow_add]; congr 1; omega
  have h3 : 2 ^ 23 ≤ x / 2 ^ (ilog2 x - 23) := by
    rw [Nat.le_div_iff_mul_le (by positivity)]
    omega
  have h4 := roundHalfEven_ge x (2 ^ (ilog2 x - 23))
  calc 2 ^ 24 ≤ 2 ^ ilog2 x := Nat.pow_le_pow_right (by norm_num) hl
    _ = 2 ^ 23 * 2 ^ (ilog2 x - 23) := h2
    _ ≤ roundHalfEven x (2 ^ (ilog2 x - 23)) * 2 ^ (ilog2 x - 23) :=
        Nat.mul_le_mul_right _ (le_trans h3 h4)


/-- The scaled quotient of `f32Div` has at least 24 significant bits. -/
theorem f32Div_norm {a b : Nat} (ha : 0 < a) (hb : 0 < b) :
    2 ^ 23 * (b * 2 ^ (ilog2 a - (ilog2 b + 23 + (if b * 2 ^ ilog2 a ≤ a * 2 ^ ilog2 b then 0 else 1))))
      ≤ a * 2 ^ (ilog2 b + 23 + (if b * 2 ^ ilog2 a ≤ a * 2 ^ ilog2 b then 0 else 1) - ilog2 a) := by
  have hla := ilog2_le ha
  have hla2 := lt_ilog2 ha
  have hlb := ilog2_le hb
  have hlb2 := lt_ilog2 hb
  set la := ilog2 a with hladef
  set lb := ilog2 b with hlbdef
  by_cases hd : b * 2 ^ la ≤ a * 2 ^ lb
  · simp only [hd, if_true, Nat.add_zero]
    by_cases hc : la ≤ lb + 23
    · have e1 : la - (lb + 23) = 0 := by omega
      rw [e1, pow_zero, Nat.mul_one]
      have e2 : (2:Nat) ^ (lb + 23 - la) * 2 ^ la = 2 ^ lb * 2 ^ 23 := by
        rw [← pow_add, ← pow_add]; congr 1; omega
      have h3 : 2 ^ 23 * b * 2 ^ la ≤ a * 2 ^ (lb + 23 - la) * 2 ^ la := by
        calc 2 ^ 23 * b * 2 ^ la = (b * 2 ^ la) * 2 ^ 23 := by ring
          _ ≤ (a * 2 ^ lb) * 2 ^ 23 := Nat.mul_le_mul_right _ hd
          _ = a * (2 ^ lb * 2 ^ 23) := by ring
          _ = a * (2 ^ (lb + 23 - la) * 2 ^ la) := by rw [e2]
          _ = a * 2 ^ (lb + 23 - la) * 2 ^ la := by ring
      exact Nat.le_of_mul_le_mul_right h3 (by positivity)
    · have e1 : lb + 23 - la = 0 := by omega
      rw [e1, pow_zero, Nat.mul_one]
      have e2 : (2:Nat) ^ 23 * 2 ^ (la - (lb + 23)) * 2 ^ lb = 2 ^ la := by
        rw [← pow_add, ← pow_add]; congr 1; omega
      have h3 : 2 ^ 23 * (b * 2 ^ (la - (lb + 23))) * 2 ^ lb ≤ a * 2 ^ lb := by
        calc 2 ^ 23 * (b * 2 ^ (la - (lb + 23))) * 2 ^ lb
            = b * (2 ^ 23 * 2 ^ (la - (lb + 23)) * 2 ^ lb) := by ring
          _ = b * 2 ^ la := by rw [e2]
          _ ≤ a * 2 ^ lb := hd
      exact Nat.le_of_mul_le_mul_right h3 (by positivity)
  · simp only [hd, if_false]
    by_cases hc : la ≤ lb + 23 + 1
    · have e1 : la - (lb + 23 + 1) = 0 := by omega
      rw [e1, pow_zero, Nat.mul_one]
      have e2 : (2:Nat) ^ la * 2 ^ (lb + 23 + 1 - la) = 2 ^ 23 * 2 ^ (lb + 1) := by
        rw [← pow_add, ← pow_add]; congr 1; omega
      calc 2 ^ 23 * b ≤ 2 ^ 23 * 2 ^ (lb + 1) := Nat.mul_le_mul_left _ (le_of_lt hlb2)
        _ = 2 ^ la * 2 ^ (lb + 23 + 1 - la) := e2.symm
        _ ≤ a * 2 ^ (lb + 23 + 1 - la) := Nat.mul_le_mul_right _ hla
    · have e1 : lb + 23 + 1 - la = 0 := by omega
      rw [e1, pow_zero, Nat.mul_one]
      have e2 : (2:Nat) ^ 23 * (2 ^ (lb + 1) * 2 ^ (la - (lb + 23 + 1))) = 2 ^ la := by
        rw [← pow_add, ← pow_add]; congr 1; omega
      calc 2 ^ 23 * (b * 2 ^ (la - (lb + 23 + 1)))
          ≤ 2 ^ 23 * (2 ^ (lb + 1) * 2 ^ (la - (lb + 23 + 1))) :=
            Nat.mul_le_mul_left _ (Nat.mul_le_mul_right _ (le_of_lt hlb2))
        _ = 2 ^ la := e2
        _ ≤ a := hla

/-- For a numerator below `2 ^ 24` the floor of the binary32 quotient is the
integer quotient. -/
theorem f32Floor_f32Div_exact {a b : Nat} (ha : a < 2 ^ 24) (hb : 0 < b) :
    f32Floor (f32Div a b) = a / b := by
  by_cases h0 : a = 0
  · simp [f32Div, f32Floor, h0]
  have hapos : 0 < a := Nat.pos_of_ne_zero h0
  have hnorm := f32Div_norm hapos hb
  have hla : ilog2 a < 24 := ilog2_lt_of_lt hapos ha
  unfold f32Div f32Floor
  simp only [h0, if_false]
  generalize hδ : (if b * 2 ^ ilog2 a ≤ a * 2 ^ ilog2 b then 0 else 1) = δ at hnorm ⊢
  have hδ1 : δ ≤ 1 := by rw [← hδ]; split <;> omega
  have hdown : ilog2 a - (ilog2 b + 23 + δ) = 0 := by omega
  rw [hdown] at hnorm ⊢
  simp only [pow_zero, Nat.mul_one] at hnorm ⊢
  generalize ilog2 b + 23 + δ - ilog2 a = u at hnorm ⊢
  have hupos : 0 < 2 ^ u := by positivity
  have hm : a * 2 ^ u / b / 2 ^ u = a / b := by
    rw [Nat.div_div_eq_div_mul, Nat.mul_div_mul_right _ _ hupos]
  have hge := roundHalfEven_ge (a * 2 ^ u) b
  have hle := roundHalfEven_le (a * 2 ^ u) b
  apply le_antisymm
  · -- no rounding up across an integer
    by_contra hc
    have hc : a / b < roundHalfEven (a * 2 ^ u) b / 2 ^ u := by omega
    have hr : roundHalfEven (a * 2 ^ u) b = a * 2 ^ u / b + 1 := by
      rcases Nat.lt_or_ge (a * 2 ^ u / b) (roundHalfEven (a * 2 ^ u) b) with h | h
      · omega
      · have : roundHalfEven (a * 2 ^ u) b = a * 2 ^ u / b := le_antisymm h hge
        rw [this, hm] at hc; omega
    have hhalf : b ≤ 2 * (a * 2 ^ u % b) := by
      unfold roundHalfEven at hr
      simp only at hr
      split at hr
      · rename_i hcond; omega
      · omega
    rw [hr] at hc
    -- (k+1) * 2^u ≤ m + 1
    have h1 : (a / b + 1) * 2 ^ u ≤ a * 2 ^ u / b + 1 :=
      (Nat.le_div_iff_mul_le hupos).1 hc
    have h2 : a + 1 ≤ (a / b + 1) * b := by
      have e1 := Nat.div_add_mod a b
      have e2 := Nat.mod_lt a hb
      have e3 : (a / b + 1) * b = b * (a / b) + b := by ring
      omega
    have h3 : (a + 1) * 2 ^ u ≤ (a * 2 ^ u / b + 1) * b :=
      calc (a + 1) * 2 ^ u ≤ (a / b + 1) * b * 2 ^ u := Nat.mul_le_mul_right _ h2
        _ = (a / b + 1) * 2 ^ u * b := by ring
        _ ≤ (a * 2 ^ u / b + 1) * b := Nat.mul_le_mul_right _ h1
    have e4 := Nat.div_add_mod (a * 2 ^ u) b
    have e5 : (a * 2 ^ u / b + 1) * b = b * (a * 2 ^ u / b) + b := by ring
    have e6 : (a + 1) * 2 ^ u = a * 2 ^ u + 2 ^ u := by ring
    have h4 : 2 * 2 ^ u ≤ b := by omega
    have h5 : 2 ^ 23 * (2 * 2 ^ u) ≤ a * 2 ^ u :=
      le_trans (Nat.mul_le_mul_left _ h4) hnorm
    have h6 : a * 2 ^ u < 2 ^ 24 * 2 ^ u := Nat.mul_lt_mul_of_pos_right ha hupos
    omega
  · rw [← hm]
    exact Nat.div_le_div_right hge

/-! ## Lemmas on the problem parameters and the partition -/

theorem num_values_eq {N : Nat} (h : N < 2 ^ 32) : num_values N = N * N := by
  unfold num_values
  apply Nat.mod_eq_of_lt
  have : N * N < 2 ^ 32 * 2 ^ 32 := Nat.mul_lt_mul'' h h
  calc N * N < 2 ^ 32 * 2 ^ 32 := this
    _ = 2 ^ 64 := by norm_num

theorem two_mul_tri (N : Nat) : 2 * (N * (N + 1) / 2) = N * (N + 1) := by
  have h : 2 ∣ N * (N + 1) := (Nat.even_mul_succ_self N).two_dvd
  exact Nat.mul_div_cancel' h

theorem cells_eq {N : Nat} (h : N < 2 ^ 32) : cells N = N * (N + 1) / 2 := by
  unfold cells
  rw [num_values_eq h]
  have hN : N % 2 ^ 64 = N := Nat.mod_eq_of_lt (lt_trans h (by norm_num))
  have hsq : N * N < 2 ^ 64 := by
    have : N * N < 2 ^ 32 * 2 ^ 32 := Nat.mul_lt_mul'' h h
    calc N * N < 2 ^ 32 * 2 ^ 32 := this
      _ = 2 ^ 64 := by norm_num
  have hle : N ≤ N * N := by
    rcases Nat.eq_zero_or_pos N with h0 | h0
    · subst h0; simp
    · exact Nat.le_mul_of_pos_left N h0
  have ht := two_mul_tri N
  have e1 : N * (N + 1) = N * N + N := by ring
  have e2 : (N * N + (2 ^ 64 - N % 2 ^ 64)) % 2 ^ 64 = N * N - N := by
    rw [hN]
    have : N * N + (2 ^ 64 - N) = (N * N - N) + 2 ^ 64 := by omega
    rw [this, Nat.add_mod_right]
    exact Nat.mod_eq_of_lt (by omega)
  rw [e2]
  have e3 : (N * N - N) / 2 + N = N * (N + 1) / 2 := by omega
  rw [e3]
  apply Nat.mod_eq_of_lt
  omega

/-- When `cells` is below `2 ^ 24` the float quotient is the integer quotient. -/
theorem chunk_base_exact {N P : Nat} (hC : cells N < 2 ^ 24) (hP : 1 ≤ P) :
    chunk_base N P = cells N / P := by
  unfold chunk_base
  rw [f32OfNat_exact hC]
  have hlt : cells N / P < 2 ^ 64 :=
    lt_of_le_of_lt (Nat.div_le_self _ _) (lt_trans hC (by norm_num))
  by_cases hp : P < 2 ^ 24
  · rw [f32OfNat_exact hp, f32Floor_f32Div_exact hC (by omega)]
    exact Nat.mod_eq_of_lt hlt
  · have hb : 2 ^ 24 ≤ f32OfNat P := f32OfNat_ge (by omega)
    rw [f32Floor_f32Div_exact hC (by omega)]
    rw [Nat.div_eq_of_lt (by omega), Nat.div_eq_of_lt (by omega)]
    rfl

theorem chunk_sizes_exact {N P : Nat} (hC : cells N < 2 ^ 24) (hP : 1 ≤ P) (i : Nat) :
    chunk_sizes N P i = cells N / P + (if i < cells N % P then 1 else 0) := by
  unfold chunk_sizes
  rw [chunk_base_exact hC hP]
  have hlt : cells N / P < 2 ^ 24 := lt_of_le_of_lt (Nat.div_le_self _ _) hC
  split
  · exact Nat.mod_eq_of_lt (by omega)
  · rfl

theorem start_offset_exact {N P : Nat} (hC : cells N < 2 ^ 24) (hP : 1 ≤ P) :
    ∀ r, r ≤ P → start_offset N P r = r * (cells N / P) + min r (cells N % P) := by
  intro r
  induction r with
  | zero => intro _; simp [start_offset]
  | succ r ih =>
    intro hr
    have e := ih (by omega)
    rw [start_offset, e, chunk_sizes_exact hC hP]
    have hd := Nat.div_add_mod (cells N) P
    have hm := Nat.mod_lt (cells N) (show 0 < P by omega)
    have hrb : r * (cells N / P) ≤ P * (cells N / P) := Nat.mul_le_mul_right _ (by omega)
    have e2 : (r + 1) * (cells N / P) = r * (cells N / P) + cells N / P := by ring
    rw [e2]
    have hb : r * (cells N / P) + cells N / P ≤ P * (cells N / P) := by
      rw [← e2]; exact Nat.mul_le_mul_right _ hr
    split
    · rename_i hlt
      rw [Nat.min_eq_left (by omega), Nat.min_eq_left (by omega)]
      rw [Nat.mod_eq_of_lt (by omega)]
      omega
    · rename_i hge
      rw [Nat.min_eq_right (by omega), Nat.min_eq_right (by omega)]
      rw [Nat.mod_eq_of_lt (by omega)]
      omega

/-! ## Lemmas on the triangular enumeration -/

theorem fastForward_step (N : Nat) : ∀ e p, fastForward N e (step N p) = step N (fastForward N e p) := by
  intro e
  induction e with
  | zero => intro p; rfl
  | succ e ih => intro p; simp only [fastForward]; exact ih _

theorem pairAt_zero (N : Nat) : pairAt N 0 = (1, 1) := rfl

theorem pairAt_succ (N p : Nat) : pairAt N (p + 1) = step N (pairAt N p) := by
  unfold pairAt
  simp only [fastForward]
  exact fastForward_step N p (1, 1)

theorem pairAt_col (N : Nat) : ∀ c d, c + d < N → pairAt N (colStart N c + d) = (c + 1 + d, c + 1) := by
  intro c
  induction c with
  | zero =>
    intro d
    induction d with
    | zero => intro _; rfl
    | succ d ihd =>
      intro h
      have e := ihd (by omega)
      rw [← Nat.add_assoc, pairAt_succ, e]
      simp only [step]
      rw [if_neg (by omega)]
      rfl
  | succ c ihc =>
    intro d
    induction d with
    | zero =>
      intro h
      have e := ihc (N - c - 1) (by omega)
      have e2 : colStart N (c + 1) + 0 = colStart N c + (N - c - 1) + 1 := by
        simp only [colStart]; omega
      rw [e2, pairAt_succ, e]
      simp only [step]
      rw [if_pos (by omega)]
    | succ d ihd =>
      intro h
      have e := ihd (by omega)
      rw [← Nat.add_assoc, pairAt_succ, e]
      simp only [step]
      rw [if_neg (by omega)]
      rfl

theorem pairAt_past (N : Nat) (hN : 1 ≤ N) : ∀ d, pairAt N (colStart N N + d) = (N + 1 + d, N + 1) := by
  intro d
  induction d with
  | zero =>
    obtain ⟨m, rfl⟩ : ∃ m, N = m + 1 := ⟨N - 1, by omega⟩
    have e : pairAt (m + 1) (colStart (m + 1) m) = (m + 1, m + 1) := by
      simpa using pairAt_col (m + 1) m 0 (by omega)
    have e2 : colStart (m + 1) (m + 1) + 0 = colStart (m + 1) m + 1 := by
      simp only [colStart]; omega
    rw [e2, pairAt_succ, e]
    simp [step]
  | succ d ihd =>
    rw [← Nat.add_assoc, pairAt_succ, ihd]
    simp only [step]
    rw [if_neg (by omega)]
    rfl

theorem colStart_formula (N : Nat) : ∀ c, c ≤ N → 2 * colStart N c + c * c = 2 * c * N + c := by
  intro c
  induction c with
  | zero => intro _; simp [colStart]
  | succ c ih =>
    intro h
    have e := ih (by omega)
    simp only [colStart]
    obtain ⟨k, rfl⟩ : ∃ k, N = c + k := ⟨N - c, by omega⟩
    have : c + k - c = k := by omega
    rw [this]
    ring_nf
    ring_nf at e
    omega

theorem colStart_full (N : Nat) : colStart N N = N * (N + 1) / 2 := by
  have e := colStart_formula N N le_rfl
  have ht := two_mul_tri N
  have e1 : N * (N + 1) = N * N + N := by ring
  have e2 : 2 * N * N = N * N + N * N := by ring
  omega

theorem colStart_mono (N : Nat) : ∀ c, colStart N c ≤ colStart N (c + 1) := by
  intro c; simp only [colStart]; omega

/-- Every position below `colStart N m` lies in one of the columns `1 .. m`. -/
theorem pos_decomp (N : Nat) : ∀ m, m ≤ N → ∀ p, p < colStart N m →
    ∃ c d, c < m ∧ c + d < N ∧ p = colStart N c + d := by
  intro m
  induction m with
  | zero => intro _ p hp; simp [colStart] at hp
  | succ m ih =>
    intro hm p hp
    by_cases h : p < colStart N m
    · obtain ⟨c, d, hc, hd, e⟩ := ih (by omega) p h
      exact ⟨c, d, by omega, hd, e⟩
    · simp only [colStart] at hp
      exact ⟨m, p - colStart N m, by omega, by omega, by omega⟩

/-- The pair at an in-range position is a cell of the triangle. -/
theorem pairAt_valid {N p : Nat} (hp : p < colStart N N) :
    1 ≤ (pairAt N p).2 ∧ (pairAt N p).2 ≤ (pairAt N p).1 ∧ (pairAt N p).1 ≤ N := by
  obtain ⟨c, d, hc, hd, e⟩ := pos_decomp N N le_rfl p hp
  rw [e, pairAt_col N c d hd]
  simp only
  omega

theorem pairAt_inj {N p q : Nat} (hp : p < colStart N N) (hq : q < colStart N N)
    (h : pairAt N p = pairAt N q) : p = q := by
  obtain ⟨c, d, _, hd, e⟩ := pos_decomp N N le_rfl p hp
  obtain ⟨c', d', _, hd', e'⟩ := pos_decomp N N le_rfl q hq
  rw [e, e', pairAt_col N c d hd, pairAt_col N c' d' hd'] at h
  simp only [Prod.mk.injEq] at h
  have hc : c = c' := by omega
  have hdd : d = d' := by omega
  rw [e, e', hc, hdd]

theorem pairAt_surj {N i j : Nat} (h1 : 1 ≤ j) (h2 : j ≤ i) (h3 : i ≤ N) :
    ∃ p, p < colStart N N ∧ pairAt N p = (i, j) := by
  refine ⟨colStart N (j - 1) + (i - j), ?_, ?_⟩
  · have hmono : ∀ m, j ≤ m → colStart N (j - 1) + (N - (j - 1)) ≤ colStart N m := by
      intro m hm
      induction m with
      | zero => omega
      | succ m ih =>
        by_cases hj : j = m + 1
        · subst hj; simp [colStart]
        · exact le_trans (ih (by omega)) (colStart_mono N m)
    have := hmono N (by omega)
    omega
  · rw [pairAt_col N (j - 1) (i - j) (by omega)]
    simp only [Prod.mk.injEq]
    omega

theorem pairAt_last {N : Nat} (hN : 1 ≤ N) : pairAt N (colStart N N - 1) = (N, N) := by
  obtain ⟨m, rfl⟩ : ∃ m, N = m + 1 := ⟨N - 1, by omega⟩
  have e := pairAt_col (m + 1) m 0 (by omega)
  have e2 : colStart (m + 1) (m + 1) - 1 = colStart (m + 1) m + 0 := by
    simp only [colStart]; omega
  rw [e2, e]

/-! ## Lemmas on bit arrays and the marking loop -/

theorem getD_set_eq (A : List Nat) (k w v : Nat) :
    (A.set k v).getD w 0 = if k = w ∧ k < A.length then v else A.getD w 0 := by
  rw [List.getD_eq_getElem?_getD, List.getD_eq_getElem?_getD, List.getElem?_set]
  by_cases h : k = w
  · subst h
    by_cases h2 : k < A.length
    · simp [h2]
    · simp [h2, List.getElem?_eq_none (Nat.le_of_not_lt h2)]
  · simp [h]

theorem testBitArr_replicate (T b : Nat) : testBitArr (List.replicate T 0) b = false := by
  unfold testBitArr
  rw [List.getD_eq_getElem?_getD]
  by_cases h : b / 32 < T
  · simp [List.getElem?_replicate, h]
  · simp [List.getElem?_replicate, h]

theorem testBitArr_of_length_le {A : List Nat} {b : Nat} (h : A.length ≤ b / 32) :
    testBitArr A b = false := by
  unfold testBitArr
  rw [List.getD_eq_getElem?_getD, List.getElem?_eq_none h]
  simp

theorem SETBIT_spec {A A1 : List Nat} {k : Nat} (h : SETBIT A k = some A1) :
    A1.length = A.length ∧ ∀ b, testBitArr A1 b = (decide (b = k) || testBitArr A b) := by
  unfold SETBIT at h
  split at h
  · rename_i hk
    cases h
    refine ⟨by simp, ?_⟩
    intro b
    unfold testBitArr
    rw [getD_set_eq]
    by_cases hw : k / 32 = b / 32
    · rw [if_pos ⟨hw, hk⟩, Nat.testBit_or, Nat.one_shiftLeft, Nat.testBit_two_pow, hw]
      by_cases hb : k % 32 = b % 32
      · have : b = k := by omega
        simp [this]
      · have : b ≠ k := by intro hbk; subst hbk; exact hb rfl
        simp [hb, this]
    · have : b ≠ k := by intro hbk; subst hbk; exact hw rfl
      simp [hw, this]
  · cases h

theorem SETBIT_some {A : List Nat} {k : Nat} (h : k / 32 < A.length) :
    ∃ A1, SETBIT A k = some A1 := by
  unfold SETBIT
  rw [if_pos h]
  exact ⟨_, rfl⟩

theorem SETBIT_none {A : List Nat} {k : Nat} (h : A.length ≤ k / 32) : SETBIT A k = none := by
  unfold SETBIT
  rw [if_neg (by omega)]

theorem prodAt_le {N p : Nat} (hp : p < colStart N N) : 1 ≤ prodAt N p ∧ prodAt N p ≤ N * N := by
  obtain ⟨h1, h2, h3⟩ := pairAt_valid hp
  unfold prodAt
  constructor
  · exact Nat.mul_pos (by omega) (by omega)
  · exact Nat.mul_le_mul h3 (le_trans h2 h3)

/-- The marking loop over `k` in-range positions never takes the defensive
branch and sets exactly the bits of the products at those positions. -/
theorem markLoop_spec {N : Nat} (hN : N < 2 ^ 32) :
    ∀ (k p : Nat) (A : List Nat), p + k ≤ colStart N N → N * N / 32 < A.length →
      ∃ A1, markLoop N (N * N) k (pairAt N p).1 (pairAt N p).2 A = some A1 ∧
        A1.length = A.length ∧
        ∀ b, testBitArr A1 b = true ↔
          (testBitArr A b = true ∨ ∃ q, p ≤ q ∧ q < p + k ∧ b = prodAt N q) := by
  intro k
  induction k with
  | zero =>
    intro p A _ _
    refine ⟨A, rfl, rfl, ?_⟩
    intro b
    constructor
    · intro h; exact Or.inl h
    · rintro (h | ⟨q, h1, h2, _⟩)
      · exact h
      · omega
  | succ k ih =>
    intro p A hp hA
    have hpv : p < colStart N N := by omega
    obtain ⟨hp1, hp2⟩ := prodAt_le hpv
    have hsq : N * N < 2 ^ 64 := by
      have : N * N < 2 ^ 32 * 2 ^ 32 := Nat.mul_lt_mul'' hN hN
      calc N * N < 2 ^ 32 * 2 ^ 32 := this
        _ = 2 ^ 64 := by norm_num
    have hmod : ((pairAt N p).1 * (pairAt N p).2) % 2 ^ 64 = prodAt N p :=
      Nat.mod_eq_of_lt (lt_of_le_of_lt hp2 hsq)
    rw [markLoop, hmod, if_neg (by omega)]
    have hin : prodAt N p / 32 < A.length :=
      lt_of_le_of_lt (Nat.div_le_div_right hp2) hA
    obtain ⟨A0, hA0⟩ := SETBIT_some hin
    obtain ⟨hlen0, hbits0⟩ := SETBIT_spec hA0
    rw [hA0]
    simp only
    have hstep : step N (pairAt N p) = pairAt N (p + 1) := (pairAt_succ N p).symm
    rw [show ((pairAt N p).1, (pairAt N p).2) = pairAt N p from rfl, hstep]
    obtain ⟨A1, hA1, hlen1, hbits1⟩ := ih (p + 1) A0 (by omega) (by omega)
    refine ⟨A1, hA1, by omega, ?_⟩
    intro b
    rw [hbits1 b, hbits0 b]
    simp only [Bool.or_eq_true, decide_eq_true_eq]
    constructor
    · rintro ((h | h) | ⟨q, h1, h2, h3⟩)
      · exact Or.inr ⟨p, le_rfl, by omega, h⟩
      · exact Or.inl h
      · exact Or.inr ⟨q, by omega, by omega, h3⟩
    · rintro (h | ⟨q, h1, h2, h3⟩)
      · exact Or.inl (Or.inr h)
      · by_cases hq : q = p
        · subst hq; exact Or.inl (Or.inl h3)
        · exact Or.inr ⟨q, by omega, by omega, h3⟩

/-! ## Lemmas on the reduction -/

theorem getD_of_length_le {A : List Nat} {w : Nat} (h : A.length ≤ w) : A.getD w 0 = 0 := by
  rw [List.getD_eq_getElem?_getD, List.getElem?_eq_none h]
  rfl

theorem list_ext_getD {A B : List Nat} (hl : A.length = B.length)
    (h : ∀ w, w < A.length → A.getD w 0 = B.getD w 0) : A = B := by
  apply List.ext_getElem hl
  intro w h1 h2
  have := h w h1
  rw [List.getD_eq_getElem?_getD, List.getD_eq_getElem?_getD,
    List.getElem?_eq_getElem h1, List.getElem?_eq_getElem h2] at this
  simpa using this

theorem orCov_length (c : Nat) (own peer : List Nat) : (orCov c own peer).length = own.length := by
  simp [orCov]

theorem orCov_getD (c : Nat) (own peer : List Nat) (hl : peer.length ≤ own.length) (w : Nat) :
    (orCov c own peer).getD w 0 =
      if w < c then own.getD w 0 ||| peer.getD w 0 else own.getD w 0 := by
  by_cases hw : w < own.length
  · unfold orCov
    rw [List.getD_eq_getElem?_getD, List.getElem?_map, List.getElem?_range hw]
    rfl
  · rw [getD_of_length_le (by rw [orCov_length]; omega)]
    rw [getD_of_length_le (Nat.le_of_not_lt hw)]
    rw [getD_of_length_le (show peer.length ≤ w by omega)]
    split <;> rfl

theorem orLoop_length (inc : List Nat) (off : Nat) :
    ∀ n A A1, orLoop inc off n A = some A1 → A1.length = A.length := by
  intro n
  induction n with
  | zero => intro A A1 h; simp only [orLoop] at h; cases h; rfl
  | succ n ih =>
    intro A A1 h
    rw [orLoop] at h
    cases h0 : orLoop inc off n A with
    | none => rw [h0] at h; cases h
    | some A0 =>
      rw [h0] at h
      simp only at h
      split at h
      · cases h
        rw [List.length_set]
        exact ih A A0 h0
      · cases h

theorem orLoop_spec (inc : List Nat) (off : Nat) :
    ∀ n A, off + n ≤ A.length → n ≤ inc.length →
      ∃ A1, orLoop inc off n A = some A1 ∧ A1.length = A.length ∧
        ∀ w, A1.getD w 0 =
          if off ≤ w ∧ w < off + n then A.getD w 0 ||| inc.getD (w - off) 0 else A.getD w 0 := by
  intro n
  induction n with
  | zero =>
    intro A _ _
    refine ⟨A, rfl, rfl, ?_⟩
    intro w
    rw [if_neg (by omega)]
  | succ n ih =>
    intro A h1 h2
    obtain ⟨A0, hA0, hlen0, hw0⟩ := ih A (by omega) (by omega)
    rw [orLoop, hA0]
    simp only
    rw [if_pos ⟨by omega, by omega⟩]
    refine ⟨_, rfl, by rw [List.length_set]; exact hlen0, ?_⟩
    intro w
    rw [getD_set_eq]
    by_cases hw : off + n = w
    · subst hw
      rw [if_pos ⟨rfl, by omega⟩, if_pos ⟨by omega, by omega⟩, hw0, if_neg (by omega)]
      congr 2
      omega
    · rw [if_neg (by omega), hw0]
      by_cases hr : off ≤ w ∧ w < off + n
      · rw [if_pos hr, if_pos ⟨hr.1, by omega⟩]
      · rw [if_neg hr, if_neg (by omega)]

theorem orLoop_none (inc : List Nat) (off : Nat) :
    ∀ n A, 0 < n → ¬ (off + n ≤ A.length ∧ n ≤ inc.length) → orLoop inc off n A = none := by
  intro n
  induction n with
  | zero => intro A h; omega
  | succ n ih =>
    intro A _ hc
    rw [orLoop]
    cases h0 : orLoop inc off n A with
    | none => rfl
    | some A0 =>
      simp only
      have hl := orLoop_length inc off n A A0 h0
      rw [if_neg (by omega)]

theorem readBlock_spec {A b : List Nat} {off len : Nat} (h : readBlock A off len = some b) :
    b.length = len ∧ ∀ i, i < len → b.getD i 0 = A.getD (off + i) 0 := by
  unfold readBlock at h
  split at h
  · rename_i hb
    cases h
    refine ⟨by simp; omega, ?_⟩
    intro i hi
    rw [List.getD_eq_getElem?_getD, List.getD_eq_getElem?_getD, List.getElem?_take,
      if_pos hi, List.getElem?_drop]
  · cases h

theorem mergePeer_some {H T : Nat} {own peer : List Nat} (ho : own.length = T)
    (hp : peer.length = T) (hc : coverage H ≤ T) :
    mergePeer H own peer = some (orCov (coverage H) own peer) := by
  have hH : H ≤ T := by unfold coverage at hc; split at hc <;> omega
  unfold mergePeer
  have hr1 : readBlock peer 0 H = some ((peer.drop 0).take H) := by
    unfold readBlock; rw [if_pos (by omega)]
  rw [hr1]
  simp only
  obtain ⟨hb1l, hb1⟩ := readBlock_spec hr1
  obtain ⟨own1, hown1, hlen1, hw1⟩ := orLoop_spec ((peer.drop 0).take H) 0 H own (by omega) (by omega)
  rw [hown1]
  simp only
  by_cases h1 : 1 < H
  · rw [if_pos h1]
    have h2H : 2 * H ≤ T := by unfold coverage at hc; rw [if_pos h1] at hc; exact hc
    have hr2 : readBlock peer H H = some ((peer.drop H).take H) := by
      unfold readBlock; rw [if_pos (by omega)]
    rw [hr2]
    simp only
    obtain ⟨hb2l, hb2⟩ := readBlock_spec hr2
    obtain ⟨own2, hown2, hlen2, hw2⟩ :=
      orLoop_spec ((peer.drop H).take H) H H own1 (by omega) (by omega)
    rw [hown2]
    congr 1
    apply list_ext_getD (by rw [orCov_length]; omega)
    intro w _
    rw [hw2, hw1, orCov_getD _ _ _ (by omega)]
    unfold coverage
    rw [if_pos h1]
    by_cases ha : w < H
    · rw [if_neg (by omega), if_pos ⟨by omega, by omega⟩, if_pos (by omega), Nat.sub_zero,
        hb1 _ ha, Nat.zero_add]
    · by_cases hb : w < H + H
      · rw [if_pos ⟨by omega, hb⟩, if_neg (by omega), if_pos (by omega), hb2 _ (by omega)]
        congr 2
        omega
      · rw [if_neg (by omega), if_neg (by omega), if_neg (by omega)]
  · rw [if_neg h1]
    congr 1
    apply list_ext_getD (by rw [orCov_length]; omega)
    intro w _
    rw [hw1, orCov_getD _ _ _ (by omega)]
    unfold coverage
    rw [if_neg h1]
    by_cases ha : w < H
    · rw [if_pos ⟨by omega, by omega⟩, if_pos ha, Nat.sub_zero, hb1 _ ha, Nat.zero_add]
    · rw [if_neg (by omega), if_neg ha]

theorem mergePeer_none {H T : Nat} {own peer : List Nat} (ho : own.length = T)
    (hp : peer.length = T) (hc : T < coverage H) : mergePeer H own peer = none := by
  unfold mergePeer
  by_cases hH : H ≤ T
  · have h1 : 1 < H := by
      unfold coverage at hc; split at hc
      · assumption
      · omega
    have h2H : T < 2 * H := by unfold coverage at hc; rw [if_pos h1] at hc; exact hc
    have hr1 : readBlock peer 0 H = some ((peer.drop 0).take H) := by
      unfold readBlock; rw [if_pos (by omega)]
    rw [hr1]
    simp only
    obtain ⟨own1, hown1, _, _⟩ :=
      orLoop_spec ((peer.drop 0).take H) 0 H own (by omega) (by simp; omega)
    rw [hown1]
    simp only
    rw [if_pos h1]
    have hr2 : readBlock peer H H = none := by
      unfold readBlock; rw [if_neg (by omega)]
    rw [hr2]
  · have hr1 : readBlock peer 0 H = none := by
      unfold readBlock; rw [if_neg (by omega)]
    rw [hr1]

/-! ## Lemmas on the popcount loop -/

theorem popcount32_le (w : Nat) : popcount32 w ≤ 32 := by
  unfold popcount32
  calc ((List.range 32).filter (fun b => w.testBit b)).length
      ≤ (List.range 32).length := List.length_filter_le _ _
    _ = 32 := List.length_range 32

theorem foldl_popcount (A : List Nat) : ∀ (order : List Nat) (c : Nat),
    c + 32 * order.length < 2 ^ 64 →
    order.foldl (fun counter i => (counter + popcount32 (A.getD i 0)) % 2 ^ 64) c
      = c + (order.map (fun i => popcount32 (A.getD i 0))).sum := by
  intro order
  induction order with
  | nil => intro c _; simp
  | cons i rest ih =>
    intro c hc
    have hp := popcount32_le (A.getD i 0)
    simp only [List.length_cons] at hc
    simp only [List.foldl_cons, List.map_cons, List.sum_cons]
    rw [Nat.mod_eq_of_lt (by omega), ih _ (by omega)]
    omega

theorem map_getD_range (A : List Nat) : (List.range A.length).map (fun i => A.getD i 0) = A := by
  apply List.ext_getElem (by simp)
  intro n h1 h2
  simp only [List.getElem_map, List.getElem_range]
  rw [List.getD_eq_getElem?_getD, List.getElem?_eq_getElem h2]
  rfl

theorem popcountLoop_eq_sum {A order : List Nat} (hT : A.length < 2 ^ 31)
    (hperm : order.Perm (List.range A.length)) :
    popcountLoop A order = some (A.map popcount32).sum := by
  unfold popcountLoop
  rw [if_pos hT]
  congr 1
  have hlen : order.length = A.length := by rw [hperm.length_eq, List.length_range]
  rw [foldl_popcount A order 0 (by omega), Nat.zero_add]
  have h1 : (order.map (fun i => popcount32 (A.getD i 0))).sum
      = ((List.range A.length).map (fun i => popcount32 (A.getD i 0))).sum :=
    (hperm.map _).sum_eq
  rw [h1]
  have h2 : (List.range A.length).map (fun i => popcount32 (A.getD i 0))
      = ((List.range A.length).map (fun i => A.getD i 0)).map popcount32 := by
    rw [List.map_map]; rfl
  rw [h2, map_getD_range]

theorem sum_popcount_eq_setBitCount : ∀ A : List Nat, (A.map popcount32).sum = setBitCount A := by
  intro A
  induction A with
  | nil => simp [setBitCount]
  | cons w A ih =>
    unfold setBitCount at ih ⊢
    simp only [List.map_cons, List.sum_cons, List.length_cons]
    rw [show 32 * (A.length + 1) = 32 + 32 * A.length by ring, List.range_add,
      List.filter_append, List.length_append, ih]
    have h1 : popcount32 w
        = ((List.range 32).filter (fun b => testBitArr (w :: A) b)).length := by
      rfl
    have h2 : ((List.range (32 * A.length)).filter (fun b => testBitArr A b)).length
        = (((List.range (32 * A.length)).map (fun x => 32 + x)).filter
            (fun b => testBitArr (w :: A) b)).length := by
      rw [List.filter_map, List.length_map]
      congr 1
      apply List.filter_congr
      intro b _
      simp only [Function.comp]
      unfold testBitArr
      have e1 : (32 + b) / 32 = b / 32 + 1 := by omega
      have e2 : (32 + b) % 32 = b % 32 := by omega
      rw [e1, e2]
      rfl
    rw [h1, h2]

/-! ## From local arrays to the reported count -/

theorem cells_eq_colStart {N : Nat} (h : N < 2 ^ 32) : cells N = colStart N N := by
  rw [cells_eq h, colStart_full]

theorem mem_products_iff (N b : Nat) :
    b ∈ products N ↔ ∃ q, q < colStart N N ∧ b = prodAt N q := by
  unfold products
  simp only [Finset.mem_image, Finset.mem_filter, Finset.mem_product, Finset.mem_Icc, Prod.exists]
  constructor
  · rintro ⟨i, j, ⟨⟨⟨hi1, hi2⟩, ⟨hj1, hj2⟩⟩, hji⟩, rfl⟩
    obtain ⟨q, hq, e⟩ := pairAt_surj hj1 hji hi2
    exact ⟨q, hq, by unfold prodAt; rw [e]⟩
  · rintro ⟨q, hq, rfl⟩
    obtain ⟨h1, h2, h3⟩ := pairAt_valid hq
    exact ⟨(pairAt N q).1, (pairAt N q).2, ⟨⟨⟨by omega, h3⟩, ⟨h1, by omega⟩⟩, h2⟩, rfl⟩

/-- The local array of a rank whose range of positions lies inside `[0, C)`. -/
theorem localMap_spec {N P r : Nat} (hN : N < 2 ^ 32)
    (hT : N * N / 32 < ints_in_bitarray N)
    (hr : start_offset N P r + chunk_sizes N P r ≤ colStart N N) :
    ∃ A, localMap N P r = some A ∧ A.length = ints_in_bitarray N ∧
      ∀ b, testBitArr A b = true ↔
        ∃ q, start_offset N P r ≤ q ∧ q < start_offset N P r + chunk_sizes N P r ∧
          b = prodAt N q := by
  unfold localMap
  rw [num_values_eq hN]
  obtain ⟨A, hA, hlen, hbits⟩ := markLoop_spec hN (chunk_sizes N P r) (start_offset N P r)
    (List.replicate (ints_in_bitarray N) 0) hr (by rw [List.length_replicate]; exact hT)
  refine ⟨A, hA, by rw [hlen, List.length_replicate], ?_⟩
  intro b
  rw [hbits b, testBitArr_replicate]
  simp

theorem testBitArr_orCov (c : Nat) (own peer : List Nat) (hl : peer.length ≤ own.length) (b : Nat) :
    testBitArr (orCov c own peer) b =
      (testBitArr own b || (decide (b / 32 < c) && testBitArr peer b)) := by
  unfold testBitArr
  rw [orCov_getD c own peer hl]
  by_cases h : b / 32 < c
  · rw [if_pos h, Nat.testBit_or]; simp [h]
  · rw [if_neg h]; simp [h]

/-- The merged array after ranks `0 .. k`, when the chunks are contiguous and
inside `[0, C)`, no transfer leaves the array, and every product's word is
among the merged words. -/
theorem reduceUpTo_spec {N P : Nat} (hN : N < 2 ^ 32)
    (hT : N * N / 32 < ints_in_bitarray N)
    (hcov : coverage (half_size N) ≤ ints_in_bitarray N)
    (hfull : N * N / 32 < coverage (half_size N))
    (hsucc : ∀ r, r < P → start_offset N P (r + 1) = start_offset N P r + chunk_sizes N P r)
    (hle : ∀ r, r ≤ P → start_offset N P r ≤ colStart N N) :
    ∀ k, k < P → ∃ M, reduceUpTo N P k = some M ∧ M.length = ints_in_bitarray N ∧
      ∀ b, testBitArr M b = true ↔ ∃ q, q < start_offset N P (k + 1) ∧ b = prodAt N q := by
  intro k
  induction k with
  | zero =>
    intro hk
    have h1 := hsucc 0 hk
    have h2 := hle (0 + 1) (by omega)
    obtain ⟨A, hA, hlen, hbits⟩ := localMap_spec (P := P) (r := 0) hN hT (by omega)
    refine ⟨A, hA, hlen, ?_⟩
    intro b
    rw [hbits b, h1]
    have h0 : start_offset N P 0 = 0 := rfl
    rw [h0]
    constructor
    · rintro ⟨q, _, hq, e⟩; exact ⟨q, by omega, e⟩
    · rintro ⟨q, hq, e⟩; exact ⟨q, by omega, by omega, e⟩
  | succ k ih =>
    intro hk
    obtain ⟨M, hM, hMlen, hMbits⟩ := ih (by omega)
    have h1 := hsucc (k + 1) hk
    have h2 := hle (k + 1 + 1) (by omega)
    obtain ⟨A, hA, hlen, hbits⟩ := localMap_spec (P := P) (r := k + 1) hN hT (by omega)
    rw [reduceUpTo, hM]
    simp only
    rw [hA]
    simp only
    rw [mergePeer_some hMlen hlen hcov]
    refine ⟨_, rfl, by rw [orCov_length]; exact hMlen, ?_⟩
    intro b
    rw [testBitArr_orCov _ _ _ (by omega)]
    simp only [Bool.or_eq_true, Bool.and_eq_true, decide_eq_true_eq]
    rw [hMbits b, hbits b, h1]
    constructor
    · rintro (⟨q, hq, e⟩ | ⟨_, q, hq1, hq2, e⟩)
      · exact ⟨q, by omega, e⟩
      · exact ⟨q, hq2, e⟩
    · rintro ⟨q, hq, e⟩
      by_cases hlt : q < start_offset N P (k + 1)
      · exact Or.inl ⟨q, hlt, e⟩
      · right
        refine ⟨?_, q, by omega, hq, e⟩
        have hqC : q < colStart N N := by omega
        have := (prodAt_le hqC).2
        rw [e]
        exact lt_of_le_of_lt (Nat.div_le_div_right this) hfull

theorem setBitCount_eq_card {M : List Nat} {S : Finset Nat}
    (h : ∀ b, testBitArr M b = true ↔ b ∈ S) : setBitCount M = S.card := by
  unfold setBitCount
  have hnd : ((List.range (32 * M.length)).filter (fun b => testBitArr M b)).Nodup :=
    (List.nodup_range _).filter _
  rw [← List.toFinset_card_of_nodup hnd]
  congr 1
  ext b
  rw [List.mem_toFinset, List.mem_filter, List.mem_range, ← h b]
  constructor
  · rintro ⟨_, hb⟩; exact hb
  · intro hb
    refine ⟨?_, hb⟩
    by_contra hc
    have : M.length ≤ b / 32 := by omega
    rw [testBitArr_of_length_le this] at hb
    cases hb

/-- The reported count is the number of distinct products when the partition
is exact (`N ≤ 5792`), no transfer leaves the array, and every product's word
is among the merged words. -/
theorem report_eq_distinctCount {N P : Nat} (hN : N ≤ 5792) (hP : 1 ≤ P)
    (hcov : coverage (half_size N) ≤ ints_in_bitarray N)
    (hfull : N * N / 32 < coverage (half_size N)) :
    report N P = some (distinctCount N) := by
  have hN32 : N < 2 ^ 32 := by omega
  have hCeq := cells_eq_colStart hN32
  have hsq : N * N ≤ 5792 * 5792 := Nat.mul_le_mul hN hN
  have hC : cells N < 2 ^ 24 := by
    rw [cells_eq hN32]
    have : N * (N + 1) ≤ 5792 * 5793 := Nat.mul_le_mul hN (by omega)
    omega
  have hTeq : ints_in_bitarray N = (N * N / 8 + 3) / 4 + 1 := by
    unfold ints_in_bitarray
    rw [num_values_eq hN32]
    exact Nat.mod_eq_of_lt (by omega)
  have hT : N * N / 32 < ints_in_bitarray N := by rw [hTeq]; omega
  have hd := Nat.div_add_mod (cells N) P
  have hm := Nat.mod_lt (cells N) (show 0 < P by omega)
  have hso := start_offset_exact hC hP
  have hsucc : ∀ r, r < P → start_offset N P (r + 1) = start_offset N P r + chunk_sizes N P r := by
    intro r hr
    rw [hso (r + 1) (by omega), hso r (by omega), chunk_sizes_exact hC hP]
    have e2 : (r + 1) * (cells N / P) = r * (cells N / P) + cells N / P := by ring
    rw [e2]
    split
    · rw [Nat.min_eq_left (by omega), Nat.min_eq_left (by omega)]; omega
    · rw [Nat.min_eq_right (by omega), Nat.min_eq_right (by omega)]; omega
  have hle : ∀ r, r ≤ P → start_offset N P r ≤ colStart N N := by
    intro r hr
    rw [hso r hr, ← hCeq]
    have hrb : r * (cells N / P) ≤ P * (cells N / P) := Nat.mul_le_mul_right _ hr
    have := Nat.min_le_right r (cells N % P)
    omega
  have hfin : start_offset N P (P - 1 + 1) = colStart N N := by
    rw [show P - 1 + 1 = P by omega, hso P le_rfl, ← hCeq, Nat.min_eq_right (by omega)]
    omega
  obtain ⟨M, hM, hMlen, hMbits⟩ :=
    reduceUpTo_spec hN32 hT hcov hfull hsucc hle (P - 1) (by omega)
  unfold report reduce
  rw [hM]
  simp only
  rw [popcountLoop_eq_sum (by rw [hMlen, hTeq]; omega) (List.Perm.refl _),
    sum_popcount_eq_setBitCount]
  congr 1
  unfold distinctCount
  apply setBitCount_eq_card
  intro b
  rw [hMbits b, hfin, mem_products_iff]

/-! ## Lemmas for the partition beyond the exact range -/

theorem start_offset_lin (N P : Nat) : ∀ r, r ≤ cells N % P →
    r * (chunk_base N P + 1) < 2 ^ 64 → start_offset N P r = r * (chunk_base N P + 1) := by
  intro r
  induction r with
  | zero => intro _ _; simp [start_offset]
  | succ r ih =>
    intro hr hb
    have e2 : (r + 1) * (chunk_base N P + 1) = r * (chunk_base N P + 1) + (chunk_base N P + 1) := by
      ring
    rw [e2] at hb ⊢
    rw [start_offset, ih (by omega) (by omega)]
    unfold chunk_sizes
    rw [if_pos (by omega), Nat.mod_eq_of_lt (by omega), Nat.mod_eq_of_lt (by omega)]

/-! ## The claims -/

/-- C1 (failing input): with `N = 6` and two processes the coordinator prints
17, while the 6 × 6 table has 18 distinct products: the product 36 is marked
by rank 1 in word 1, which is never transferred. -/
theorem report_6_2_undercounts : report 6 2 = some 17 ∧ distinctCount 6 = 18 := by
  decide

/-- C2 (failing input): for `N = 6` the printed count depends on the process
count: 18 with one process, 17 with two and with five processes. -/
theorem report_6_depends_on_process_count :
    report 6 1 = some 18 ∧ report 6 2 = some 17 ∧ report 6 5 = some 17 := by
  decide

/-- C3: for the table sizes 2, 3 and 10 and every process count `P ≥ 1` the
coordinator prints 3, 6 and 42 respectively. -/
theorem report_small_tables (P : Nat) (hP : 1 ≤ P) :
    report 2 P = some 3 ∧ report 3 P = some 6 ∧ report 10 P = some 42 := by
  have h2 : report 2 P = some (distinctCount 2) :=
    report_eq_distinctCount (by norm_num) hP (by decide) (by decide)
  have h3 : report 3 P = some (distinctCount 3) :=
    report_eq_distinctCount (by norm_num) hP (by decide) (by decide)
  have h10 : report 10 P = some (distinctCount 10) :=
    report_eq_distinctCount (by norm_num) hP (by decide) (by decide)
  have d2 : distinctCount 2 = 3 := by decide
  have d3 : distinctCount 3 = 6 := by decide
  have d10 : distinctCount 10 = 42 := by decide
  rw [h2, h3, h10, d2, d3, d10]
  exact ⟨rfl, rfl, rfl⟩

theorem report_small_tables_witness :
    1 ≤ 5 ∧ report 2 5 = some 3 ∧ report 3 5 = some 6 ∧ report 10 5 = some 42 :=
  ⟨by decide, report_small_tables 5 (by decide)⟩

/-- C4 (failing input): with `N = 6` and two processes the array has two
words and `half_size` is 1, so only word 0 is transferred: word 1 of the
coordinator stays 0 after the reduction although word 1 of rank 1 is 16
(bit 36). -/
theorem reduce_6_2_drops_word_1 :
    ints_in_bitarray 6 = 2 ∧ half_size 6 = 1 ∧
    localMap 6 2 0 = some [5502, 0] ∧ localMap 6 2 1 = some [1125487104, 16] ∧
    reduce 6 2 = some [1125488510, 0] := by
  decide

/-- C5 (failing input): for `N = 5793` and one process the chunk sizes sum to
16782320, one less than `cells = 5793 * 5794 / 2 = 16782321`: the conversion
`(float) cells` rounds the odd value down. -/
theorem chunk_sum_5793_short :
    cells 5793 = 16782321 ∧ 5793 * (5793 + 1) / 2 = 16782321 ∧
    chunk_sizes 5793 1 0 = 16782320 ∧ start_offset 5793 1 1 = 16782320 := by
  decide

/-- C6 (failing input): for `N = 5794`, one process and rank 0 the program
computes the chunk size 16788116, while `floor(C / P)` plus the remainder
term is `C = 16788115`: the conversion `(float) cells` rounds up. -/
theorem chunk_size_5794_not_quotient :
    chunk_sizes 5794 1 0 = 16788116 ∧
    cells 5794 / 1 + (if 0 < cells 5794 % 1 then 1 else 0) = 16788115 := by
  decide

/-- C7: for `N ≥ 1` and `C = N (N + 1) / 2`, the pairs at positions
`0 .. C - 1` (position 0 is `(1, 1)`, each next position is one advance step)
are pairwise distinct, are exactly the pairs `(i, j)` with `1 ≤ j ≤ i ≤ N`,
and the last one is `(N, N)`. -/
theorem enumeration_visits_triangle_once (N : Nat) (hN : 1 ≤ N) :
    pairAt N 0 = (1, 1) ∧ (∀ p, pairAt N (p + 1) = step N (pairAt N p)) ∧
    ((List.range (N * (N + 1) / 2)).map (pairAt N)).Nodup ∧
    (∀ i j, (i, j) ∈ (List.range (N * (N + 1) / 2)).map (pairAt N) ↔
      1 ≤ j ∧ j ≤ i ∧ i ≤ N) ∧
    pairAt N (N * (N + 1) / 2 - 1) = (N, N) := by
  rw [← colStart_full]
  refine ⟨rfl, pairAt_succ N, ?_, ?_, pairAt_last hN⟩
  · apply List.Nodup.map_on _ (List.nodup_range _)
    intro p hp q hq h
    rw [List.mem_range] at hp hq
    exact pairAt_inj hp hq h
  · intro i j
    rw [List.mem_map]
    constructor
    · rintro ⟨p, hp, e⟩
      rw [List.mem_range] at hp
      have := pairAt_valid hp
      rw [e] at this
      exact this
    · rintro ⟨h1, h2, h3⟩
      obtain ⟨p, hp, e⟩ := pairAt_surj h1 h2 h3
      exact ⟨p, List.mem_range.2 hp, e⟩

theorem enumeration_visits_triangle_once_witness :
    1 ≤ 3 ∧ (pairAt 3 0 = (1, 1) ∧ (∀ p, pairAt 3 (p + 1) = step 3 (pairAt 3 p)) ∧
    ((List.range (3 * (3 + 1) / 2)).map (pairAt 3)).Nodup ∧
    (∀ i j, (i, j) ∈ (List.range (3 * (3 + 1) / 2)).map (pairAt 3) ↔
      1 ≤ j ∧ j ≤ i ∧ i ≤ 3) ∧
    pairAt 3 (3 * (3 + 1) / 2 - 1) = (3, 3)) :=
  ⟨by decide, enumeration_visits_triangle_once 3 (by decide)⟩

/-- C8 (counterexample): with `N = 6437` and 4552 processes the float
quotient gives every rank a chunk of 4552 or 4553 cells although only
`C = 20720703 = 4552 * 4552 - 1` cells exist, so the last rank (4551) starts
at position `C`, on the pair `(6438, 6438)`.  Its first product exceeds
`num_values`, the defensive branch sets bit `6437 * 6437` and ends the loop:
that bit is the product of no position of the rank's range. -/
theorem localMap_6437_marks_outside_range :
    ¬ ∃ A, localMap 6437 4552 4551 = some A ∧
      ∀ b, testBitArr A b = true ↔
        ∃ q, start_offset 6437 4552 4551 ≤ q ∧
          q < start_offset 6437 4552 4551 + chunk_sizes 6437 4552 4551 ∧
          b = prodAt 6437 q := by
  have hcb : chunk_base 6437 4552 = 4552 := by decide
  have hcells : cells 6437 = 20720703 := by decide
  have hstart : start_offset 6437 4552 4551 = 20720703 := by
    rw [start_offset_lin 6437 4552 4551 (by rw [hcells]) (by rw [hcb]; norm_num), hcb]
  have hchunk : chunk_sizes 6437 4552 4551 = 4551 + 1 := by decide
  have hV : num_values 6437 = 41434969 := by decide
  have hT : ints_in_bitarray 6437 = 1294844 := by decide
  have hcol : colStart 6437 6437 = 20720703 := by rw [colStart_full]
  have hpast : ∀ d, pairAt 6437 (20720703 + d) = (6437 + 1 + d, 6437 + 1) := by
    intro d
    rw [← hcol]
    exact pairAt_past 6437 (by norm_num) d
  have hpair : pairAt 6437 20720703 = (6438, 6438) := hpast 0
  rintro ⟨A, hA, hbits⟩
  unfold localMap at hA
  rw [hstart, hchunk, hV, hT, hpair, markLoop, if_pos (by norm_num)] at hA
  have hk : ((6438 - 1) * (6438 - 1)) % 2 ^ 64 = 41434969 := by norm_num
  simp only [hk] at hA
  obtain ⟨_, hset⟩ := SETBIT_spec hA
  have hb := hset 41434969
  rw [testBitArr_replicate] at hb
  simp only [decide_True, Bool.or_false] at hb
  obtain ⟨q, hq1, _, hq3⟩ := (hbits 41434969).1 hb
  rw [hstart] at hq1
  obtain ⟨d, rfl⟩ : ∃ d, q = 20720703 + d := ⟨q - 20720703, by omega⟩
  unfold prodAt at hq3
  rw [hpast d] at hq3
  simp only at hq3
  have : (6437 + 1 + d) * (6437 + 1) = 6438 * 6438 + 6438 * d := by ring
  omega

/-- C8 (amended): when the word count fits an `unsigned int` (`N ≤ 370727`)
and the rank's range ends inside the enumeration (`start + chunk ≤ cells`),
the marking loop returns an array of `ints_in_bitarray` words whose set bits
are exactly the products at the positions of the range; every set bit lies
in `[1, N * N]`. -/
theorem localMap_marks_exactly (N P r : Nat) (hN : N ≤ 370727)
    (hr : start_offset N P r + chunk_sizes N P r ≤ cells N) :
    ∃ A, localMap N P r = some A ∧ A.length = ints_in_bitarray N ∧
      (∀ b, testBitArr A b = true ↔
        ∃ q, start_offset N P r ≤ q ∧ q < start_offset N P r + chunk_sizes N P r ∧
          b = prodAt N q) ∧
      (∀ b, testBitArr A b = true → 1 ≤ b ∧ b ≤ N * N) := by
  have hN32 : N < 2 ^ 32 := by omega
  have hsq : N * N ≤ 370727 * 370727 := Nat.mul_le_mul hN hN
  have hTeq : ints_in_bitarray N = (N * N / 8 + 3) / 4 + 1 := by
    unfold ints_in_bitarray
    rw [num_values_eq hN32]
    exact Nat.mod_eq_of_lt (by omega)
  have hT : N * N / 32 < ints_in_bitarray N := by rw [hTeq]; omega
  rw [cells_eq_colStart hN32] at hr
  obtain ⟨A, hA, hlen, hbits⟩ := localMap_spec (P := P) (r := r) hN32 hT hr
  refine ⟨A, hA, hlen, hbits, ?_⟩
  intro b hb
  obtain ⟨q, _, hq, e⟩ := (hbits b).1 hb
  rw [e]
  exact prodAt_le (by omega)

theorem localMap_marks_exactly_witness :
    3 ≤ 370727 ∧ start_offset 3 2 1 + chunk_sizes 3 2 1 ≤ cells 3 ∧
    ∃ A, localMap 3 2 1 = some A ∧ A.length = ints_in_bitarray 3 ∧
      (∀ b, testBitArr A b = true ↔
        ∃ q, start_offset 3 2 1 ≤ q ∧ q < start_offset 3 2 1 + chunk_sizes 3 2 1 ∧
          b = prodAt 3 q) ∧
      (∀ b, testBitArr A b = true → 1 ≤ b ∧ b ≤ 3 * 3) :=
  ⟨by decide, by decide, localMap_marks_exactly 3 2 1 (by decide) (by decide)⟩

theorem popcount32_two_pow : ∀ k, k < 32 → popcount32 (2 ^ k) = 1 := by
  decide

theorem popcountLoop_none {A : List Nat} (h : 2 ^ 31 ≤ A.length) (order : List Nat) :
    popcountLoop A order = none := by
  unfold popcountLoop
  rw [if_neg (by omega)]

theorem exists_zero_array (n : Nat) : ∃ A : List Nat, A.length = n ∧ ∀ w ∈ A, w = 0 :=
  ⟨List.replicate n 0, List.length_replicate n 0, fun _ hw => List.eq_of_mem_replicate hw⟩

/-- C9 (counterexample): for `N = 262144` the array has
`ints_in_bitarray = 2147483649` words, more than an `int` index can count: on
the all-zero array of that size the popcount loop is undefined for every
order, instead of leaving the counter at 0. -/
theorem popcountLoop_undefined_for_262144 :
    ints_in_bitarray 262144 = 2147483649 ∧
    ∃ A : List Nat, A.length = ints_in_bitarray 262144 ∧ (∀ w ∈ A, w = 0) ∧
      ∀ order, popcountLoop A order = none ∧ popcountLoop A order ≠ some 0 := by
  have hT : ints_in_bitarray 262144 = 2147483649 := by decide
  refine ⟨hT, ?_⟩
  rw [hT]
  obtain ⟨A, hA, hz⟩ := exists_zero_array 2147483649
  refine ⟨A, hA, hz, ?_⟩
  intro order
  have h := popcountLoop_none (A := A) (by rw [hA]; norm_num) order
  rw [h]
  exact ⟨rfl, fun hc => Option.noConfusion hc⟩

/-- C9 (amended): for an array of `T < 2 ^ 31` words (the loop index is an
`int`) and every order in which the loop adds the words, the counter ends as
the sum of the per-word popcounts, which is the number of set bits of the
array; it is 0 for an all-zero array and the word count for an array with
exactly one bit set in each word. -/
theorem popcountLoop_counts_set_bits (A order : List Nat) (hT : A.length < 2 ^ 31)
    (hperm : order.Perm (List.range A.length)) :
    popcountLoop A order = some (A.map popcount32).sum ∧
    popcountLoop A order = some (setBitCount A) ∧
    ((∀ w ∈ A, w = 0) → popcountLoop A order = some 0) ∧
    ((∀ w ∈ A, ∃ k, k < 32 ∧ w = 2 ^ k) → popcountLoop A order = some A.length) := by
  have h := popcountLoop_eq_sum hT hperm
  refine ⟨h, by rw [h, sum_popcount_eq_setBitCount], ?_, ?_⟩
  · intro hz
    rw [h]
    have : A.map popcount32 = A.map (fun _ => 0) := by
      apply List.map_congr_left
      intro w hw
      rw [hz w hw]
      rfl
    rw [this]
    simp
  · intro h1
    rw [h]
    have : A.map popcount32 = A.map (fun _ => 1) := by
      apply List.map_congr_left
      intro w hw
      obtain ⟨k, hk, rfl⟩ := h1 w hw
      exact popcount32_two_pow k hk
    rw [this]
    simp

theorem popcountLoop_counts_set_bits_witness :
    [5, 2, 0].length < 2 ^ 31 ∧ [2, 0, 1].Perm (List.range [5, 2, 0].length) ∧
    popcountLoop [5, 2, 0] [2, 0, 1] = some ([5, 2, 0].map popcount32).sum ∧
    popcountLoop [5, 2, 0] [2, 0, 1] = some (setBitCount [5, 2, 0]) ∧
    ((∀ w ∈ [5, 2, 0], w = 0) → popcountLoop [5, 2, 0] [2, 0, 1] = some 0) ∧
    ((∀ w ∈ [5, 2, 0], ∃ k, k < 32 ∧ w = 2 ^ k) →
      popcountLoop [5, 2, 0] [2, 0, 1] = some [5, 2, 0].length) :=
  ⟨by decide, by decide,
    popcountLoop_counts_set_bits [5, 2, 0] [2, 0, 1] (by decide) (by decide)⟩

theorem mergePeer_eq {H T : Nat} {own peer : List Nat} (ho : own.length = T)
    (hp : peer.length = T) :
    mergePeer H own peer =
      if coverage H ≤ T then some (orCov (coverage H) own peer) else none := by
  by_cases hc : coverage H ≤ T
  · rw [if_pos hc, mergePeer_some ho hp hc]
  · rw [if_neg hc, mergePeer_none ho hp (by omega)]

theorem orCov_comm {c : Nat} {own p q : List Nat} (hp : p.length = own.length)
    (hq : q.length = own.length) :
    orCov c (orCov c own p) q = orCov c (orCov c own q) p := by
  apply list_ext_getD (by simp [orCov_length])
  intro w _
  rw [orCov_getD _ _ _ (by rw [orCov_length]; omega), orCov_getD _ _ _ (by omega),
    orCov_getD _ _ _ (by rw [orCov_length]; omega), orCov_getD _ _ _ (by omega)]
  split
  · rw [Nat.lor_assoc, Nat.lor_comm (p.getD w 0), Nat.lor_assoc]
  · rfl

theorem getD_zipWith_lor {p q : List Nat} (h : p.length = q.length) (w : Nat) :
    (List.zipWith (fun a b => a ||| b) p q).getD w 0 = p.getD w 0 ||| q.getD w 0 := by
  rw [List.getD_eq_getElem?_getD, List.getD_eq_getElem?_getD, List.getD_eq_getElem?_getD,
    List.getElem?_zipWith]
  by_cases hw : w < p.length
  · rw [List.getElem?_eq_getElem hw, List.getElem?_eq_getElem (by omega)]
    rfl
  · rw [List.getElem?_eq_none (by omega), List.getElem?_eq_none (by omega)]
    rfl

theorem orCov_zipWith {c : Nat} {own p q : List Nat} (hp : p.length = own.length)
    (hq : q.length = own.length) :
    orCov c (orCov c own p) q = orCov c own (List.zipWith (fun a b => a ||| b) p q) := by
  apply list_ext_getD (by simp [orCov_length])
  intro w _
  rw [orCov_getD _ _ _ (by rw [orCov_length]; omega), orCov_getD _ _ _ (by omega),
    orCov_getD _ _ _ (by rw [List.length_zipWith]; omega), getD_zipWith_lor (by omega)]
  split
  · rw [Nat.lor_assoc]
  · rfl

theorem mergeAll_cons {H T : Nat} {own peer : List Nat} (rest : List (List Nat))
    (ho : own.length = T) (hp : peer.length = T) :
    mergeAll H own (peer :: rest) =
      if coverage H ≤ T then mergeAll H (orCov (coverage H) own peer) rest else none := by
  rw [mergeAll, mergePeer_eq ho hp]
  by_cases hc : coverage H ≤ T
  · simp only [if_pos hc]
  · simp only [if_neg hc]

theorem mergeAll_perm (H T : Nat) {peers peers1 : List (List Nat)} (hperm : peers.Perm peers1) :
    ∀ own : List Nat, own.length = T → (∀ p ∈ peers, p.length = T) →
      mergeAll H own peers = mergeAll H own peers1 := by
  induction hperm with
  | nil => intro own _ _; rfl
  | cons x _ ih =>
    intro own ho hl
    have hx : x.length = T := hl x (List.mem_cons_self _ _)
    rw [mergeAll_cons _ ho hx, mergeAll_cons _ ho hx]
    by_cases hc : coverage H ≤ T
    · rw [if_pos hc, if_pos hc]
      exact ih _ (by rw [orCov_length]; exact ho) (fun p hp => hl p (List.mem_cons_of_mem _ hp))
    · rw [if_neg hc, if_neg hc]
  | swap x y l =>
    intro own ho hl
    have hy : y.length = T := hl y (List.mem_cons_self _ _)
    have hx : x.length = T := hl x (List.mem_cons_of_mem _ (List.mem_cons_self _ _))
    rw [mergeAll_cons _ ho hy, mergeAll_cons _ ho hx]
    by_cases hc : coverage H ≤ T
    · rw [if_pos hc, if_pos hc,
        mergeAll_cons _ (by rw [orCov_length]; exact ho) hx,
        mergeAll_cons _ (by rw [orCov_length]; exact ho) hy, if_pos hc, if_pos hc,
        orCov_comm (by omega) (by omega)]
    · rw [if_neg hc, if_neg hc]
  | trans h1 _ ih1 ih2 =>
    intro own ho hl
    rw [ih1 own ho hl]
    exact ih2 own ho (fun p hp => hl p (h1.mem_iff.2 hp))

theorem mergeAll_append_single (H : Nat) : ∀ (l : List (List Nat)) (own p : List Nat),
    mergeAll H own (l ++ [p]) =
      match mergeAll H own l with
      | none => none
      | some o => mergePeer H o p := by
  intro l
  induction l with
  | nil =>
    intro own p
    simp only [List.nil_append, mergeAll]
    cases mergePeer H own p <;> rfl
  | cons x l ih =>
    intro own p
    simp only [List.cons_append, mergeAll]
    cases mergePeer H own x with
    | none => rfl
    | some o => exact ih o p

/-- The coordinator's loop over the ranks is the merge loop over the list of
the peers' local arrays, in ascending rank order. -/
theorem reduceUpTo_eq_mergeAll (N P : Nat) (A : Nat → List Nat) :
    ∀ k, (∀ r, r ≤ k → localMap N P r = some (A r)) →
      reduceUpTo N P k =
        mergeAll (half_size N) (A 0) ((List.range k).map (fun r => A (r + 1))) := by
  intro k
  induction k with
  | zero => intro h; exact h 0 le_rfl
  | succ k ih =>
    intro h
    rw [reduceUpTo, ih (fun r hr => h r (by omega)), List.range_succ, List.map_append,
      List.map_singleton, mergeAll_append_single, h (k + 1) le_rfl]

/-- C10: for peer arrays of the same word count `T` as the coordinator's, the
merge loop gives the same result for every order of the peers, and merging
two peers one after the other equals merging their word-wise OR. -/
theorem merge_comm_assoc (H T : Nat) (own : List Nat) (peers peers1 : List (List Nat))
    (ho : own.length = T) (hl : ∀ p ∈ peers, p.length = T) (hperm : peers.Perm peers1) :
    mergeAll H own peers = mergeAll H own peers1 ∧
    (∀ p q : List Nat, p.length = T → q.length = T →
      mergeAll H own [p, q] = mergeAll H own [List.zipWith (fun a b => a ||| b) p q]) := by
  refine ⟨mergeAll_perm H T hperm own ho hl, ?_⟩
  intro p q hp hq
  have hz : (List.zipWith (fun a b => a ||| b) p q).length = T := by
    rw [List.length_zipWith]; omega
  rw [mergeAll_cons _ ho hp, mergeAll_cons _ ho hz]
  by_cases hc : coverage H ≤ T
  · rw [if_pos hc, if_pos hc, mergeAll_cons _ (by rw [orCov_length]; exact ho) hq, if_pos hc,
      orCov_zipWith (by omega) (by omega)]
  · rw [if_neg hc, if_neg hc]

theorem merge_comm_assoc_witness :
    [1, 0, 0, 8].length = 4 ∧ (∀ p ∈ [[2, 0, 4, 0], [0, 16, 0, 1]], p.length = 4) ∧
    [[2, 0, 4, 0], [0, 16, 0, 1]].Perm [[0, 16, 0, 1], [2, 0, 4, 0]] ∧
    mergeAll 2 [1, 0, 0, 8] [[2, 0, 4, 0], [0, 16, 0, 1]]
      = mergeAll 2 [1, 0, 0, 8] [[0, 16, 0, 1], [2, 0, 4, 0]] ∧
    (∀ p q : List Nat, p.length = 4 → q.length = 4 →
      mergeAll 2 [1, 0, 0, 8] [p, q]
        = mergeAll 2 [1, 0, 0, 8] [List.zipWith (fun a b => a ||| b) p q]) :=
  ⟨by decide, by decide, List.Perm.swap _ _ _,
    merge_comm_assoc 2 4 [1, 0, 0, 8] [[2, 0, 4, 0], [0, 16, 0, 1]] [[0, 16, 0, 1], [2, 0, 4, 0]]
      (by decide) (by decide) (List.Perm.swap _ _ _)⟩

/-! ## Claims on `SETBIT` and on the argument check -/

theorem lor_two_pow_of_testBit {x s : Nat} (h : x.testBit s = true) : x ||| 2 ^ s = x := by
  apply Nat.eq_of_testBit_eq
  intro i
  rw [Nat.testBit_or, Nat.testBit_two_pow]
  by_cases hi : s = i
  · subst hi; simp [h]
  · simp [hi]

theorem set_getD_self (A : List Nat) (i : Nat) : A.set i (A.getD i 0) = A := by
  apply list_ext_getD (by simp)
  intro w _
  rw [getD_set_eq]
  split
  · rename_i h; rw [h.1]
  · rfl

/-- C11: when word `k / 32` is inside `A`, `SETBIT` succeeds, applying it a
second time with the same `k` changes nothing, it leaves `A` itself when bit
`k` is already set, and every word other than word `k / 32` keeps its value. -/
theorem SETBIT_idempotent (A : List Nat) (k : Nat) (hk : k / 32 < A.length) :
    ∃ A1, SETBIT A k = some A1 ∧ SETBIT A1 k = some A1 ∧
      (testBitArr A k = true → A1 = A) ∧
      (∀ w, w ≠ k / 32 → A1.getD w 0 = A.getD w 0) ∧ A1.length = A.length := by
  refine ⟨A.set (k / 32) (A.getD (k / 32) 0 ||| 1 <<< (k % 32)), ?_, ?_, ?_, ?_, ?_⟩
  · unfold SETBIT; rw [if_pos hk]
  · unfold SETBIT
    rw [if_pos (by rw [List.length_set]; exact hk), getD_set_eq, if_pos ⟨rfl, hk⟩,
      List.set_set, Nat.lor_assoc, Nat.or_self]
  · intro hb
    unfold testBitArr at hb
    rw [Nat.one_shiftLeft, lor_two_pow_of_testBit hb, set_getD_self]
  · intro w hw
    rw [getD_set_eq, if_neg (by intro h; exact hw h.1.symm)]
  · rw [List.length_set]

theorem SETBIT_idempotent_witness :
    36 / 32 < [5502, 0].length ∧
    ∃ A1, SETBIT [5502, 0] 36 = some A1 ∧ SETBIT A1 36 = some A1 ∧
      (testBitArr [5502, 0] 36 = true → A1 = [5502, 0]) ∧
      (∀ w, w ≠ 36 / 32 → A1.getD w 0 = [5502, 0].getD w 0) ∧
      A1.length = [5502, 0].length :=
  ⟨by decide, SETBIT_idempotent [5502, 0] 36 (by decide)⟩

/-- C12: with `argc < 2` every process returns 0 and runs no stage of the
pipeline, whatever the other inputs; rank 0 prints the usage message and
nothing else, every other rank prints nothing, so no count line is printed. -/
theorem missing_argument_exits_cleanly (argc table_size num_processors process_rank : Nat)
    (hargc : argc < 2) :
    ∃ res, mainProc argc table_size num_processors process_rank = some res ∧
      res.status = 0 ∧ res.phases = [] ∧
      res.out = (if process_rank = 0 then [OutLine.usage] else []) ∧
      (∀ c, OutLine.counter c ∉ res.out) := by
  refine ⟨⟨0, if process_rank = ROOT then [OutLine.usage] else [], []⟩, ?_, rfl, rfl, rfl, ?_⟩
  · unfold mainProc; rw [if_pos hargc]
  · intro c hc
    simp only at hc
    split at hc
    · simp at hc
    · simp at hc

theorem missing_argument_exits_cleanly_witness :
    1 < 2 ∧ ∃ res, mainProc 1 0 4 0 = some res ∧
      res.status = 0 ∧ res.phases = [] ∧
      res.out = (if 0 = 0 then [OutLine.usage] else []) ∧
      (∀ c, OutLine.counter c ∉ res.out) :=
  ⟨by decide, missing_argument_exits_cleanly 1 0 4 0 (by decide)⟩

/-- C13 (counterexample): with the argument present and parsed as 0, a single
process reports no usage error: it runs the pipeline and prints the count 0. -/
theorem table_size_zero_not_rejected :
    mainProc 2 0 1 0 = some ⟨0, [OutLine.counter 0, OutLine.wallclock],
      [Phase.partition, Phase.mark, Phase.merge, Phase.count]⟩ := by
  decide

theorem localMap_zero {P : Nat} (hP : 1 ≤ P) (r : Nat) : localMap 0 P r = some [0] := by
  have hC : cells 0 < 2 ^ 24 := by decide
  have hc : chunk_sizes 0 P r = 0 := by
    rw [chunk_sizes_exact hC hP]
    have : cells 0 = 0 := by decide
    rw [this]
    simp
  unfold localMap
  rw [hc]
  rfl

/-- C13 (amended): the only usage check is `argc < 2`.  With an argument
present no process prints the usage message, whatever its parsed value; with
the parsed value 0 and `P ≥ 1` processes the coordinator runs the pipeline
and prints the count 0, and every other rank marks, sends and prints nothing. -/
theorem present_argument_never_rejected (argc P : Nat) (hargc : 2 ≤ argc) (hP : 1 ≤ P) :
    (∀ N Q rank res, mainProc argc N Q rank = some res → OutLine.usage ∉ res.out) ∧
    mainProc argc 0 P 0 = some ⟨0, [OutLine.counter 0, OutLine.wallclock],
      [Phase.partition, Phase.mark, Phase.merge, Phase.count]⟩ ∧
    (∀ rank, rank ≠ 0 →
      mainProc argc 0 P rank = some ⟨0, [], [Phase.partition, Phase.mark, Phase.send]⟩) := by
  refine ⟨?_, ?_, ?_⟩
  · intro N Q rank res h
    unfold mainProc at h
    rw [if_neg (by omega)] at h
    split at h
    · split at h
      · cases h
      · cases h; simp
    · split at h
      · cases h
      · split at h
        · cases h
        · split at h
          · split at h
            · cases h
            · cases h; simp
          · cases h; simp
  · have hr : report 0 P = some (distinctCount 0) :=
      report_eq_distinctCount (by norm_num) hP (by decide) (by decide)
    have hd : distinctCount 0 = 0 := by decide
    unfold mainProc
    rw [if_neg (by omega), if_pos (show (0:Nat) = ROOT from rfl), hr, hd]
  · intro rank hrank
    unfold mainProc
    rw [if_neg (by omega), if_neg (show ¬ rank = ROOT from hrank), localMap_zero hP]
    rfl

theorem present_argument_never_rejected_witness :
    2 ≤ 2 ∧ 1 ≤ 3 ∧
    (∀ N Q rank res, mainProc 2 N Q rank = some res → OutLine.usage ∉ res.out) ∧
    mainProc 2 0 3 0 = some ⟨0, [OutLine.counter 0, OutLine.wallclock],
      [Phase.partition, Phase.mark, Phase.merge, Phase.count]⟩ ∧
    (∀ rank, rank ≠ 0 →
      mainProc 2 0 3 rank = some ⟨0, [], [Phase.partition, Phase.mark, Phase.send]⟩) :=
  ⟨by decide, by decide, present_argument_never_rejected 2 3 (by decide) (by decide)⟩
/-! ## Claims on the single-process run and on the enumeration -/

theorem ints_in_bitarray_eq {N : Nat} (hN : N ≤ 370727) :
    ints_in_bitarray N = (N * N / 8 + 3) / 4 + 1 := by
  have hsq : N * N ≤ 370727 * 370727 := Nat.mul_le_mul hN hN
  unfold ints_in_bitarray
  rw [num_values_eq (by omega)]
  exact Nat.mod_eq_of_lt (by omega)

/-- With one process the printed count is the number of distinct products
among the first `chunk_sizes N 1 0` positions, as long as that chunk ends
inside the enumeration. -/
theorem report_single_process {N : Nat} (hN : N ≤ 262143)
    (hk : chunk_sizes N 1 0 ≤ colStart N N) :
    report N 1 = some ((Finset.range (chunk_sizes N 1 0)).image (prodAt N)).card := by
  have hN32 : N < 2 ^ 32 := by omega
  have hTeq := ints_in_bitarray_eq (show N ≤ 370727 by omega)
  have hsq : N * N ≤ 262143 * 262143 := Nat.mul_le_mul hN hN
  have hT : N * N / 32 < ints_in_bitarray N := by rw [hTeq]; omega
  have h0 : start_offset N 1 0 = 0 := rfl
  obtain ⟨A, hA, hlen, hbits⟩ := localMap_spec (P := 1) (r := 0) hN32 hT (by rw [h0]; omega)
  have hred : reduce N 1 = some A := hA
  unfold report
  rw [hred]
  simp only
  have hlt : A.length < 2 ^ 31 := by rw [hlen, hTeq]; omega
  rw [popcountLoop_eq_sum hlt (List.Perm.refl _), sum_popcount_eq_setBitCount]
  congr 1
  apply setBitCount_eq_card
  intro b
  rw [hbits b, h0, Finset.mem_image]
  constructor
  · rintro ⟨q, _, hq, e⟩
    exact ⟨q, Finset.mem_range.2 (by omega), e.symm⟩
  · rintro ⟨q, hq, e⟩
    exact ⟨q, Nat.zero_le _, by rw [Finset.mem_range] at hq; omega, e.symm⟩

theorem products_eq_image (N : Nat) :
    products N = (Finset.range (colStart N N)).image (prodAt N) := by
  ext b
  rw [mem_products_iff, Finset.mem_image]
  constructor
  · rintro ⟨q, hq, e⟩; exact ⟨q, Finset.mem_range.2 hq, e.symm⟩
  · rintro ⟨q, hq, e⟩; exact ⟨q, Finset.mem_range.1 hq, e.symm⟩

/-- The product `N * N` occurs only at the last position: leaving that
position out loses exactly one distinct product. -/
theorem card_without_last {N : Nat} (hN : 1 ≤ N) :
    ((Finset.range (colStart N N - 1)).image (prodAt N)).card + 1 = distinctCount N := by
  have hpos : 0 < colStart N N := by
    obtain ⟨p, hp, _⟩ := pairAt_surj (N := N) (i := N) (j := N) hN le_rfl le_rfl
    omega
  unfold distinctCount
  rw [products_eq_image]
  obtain ⟨k, hk⟩ : ∃ k, colStart N N = k + 1 := ⟨colStart N N - 1, by omega⟩
  rw [hk] at hpos ⊢
  simp only [Nat.add_sub_cancel]
  rw [Finset.range_succ, Finset.image_insert, Finset.card_insert_of_not_mem]
  have hk1 : colStart N N - 1 = k := by omega
  rw [Finset.mem_image]
  rintro ⟨q, hq, hprod⟩
  rw [Finset.mem_range] at hq
  have hqC : q < colStart N N := by omega
  obtain ⟨h1, h2, h3⟩ := pairAt_valid hqC
  have hlast := pairAt_last hN
  rw [hk1] at hlast
  have hNN : prodAt N k = N * N := by unfold prodAt; rw [hlast]
  rw [hNN] at hprod
  unfold prodAt at hprod
  have hi : (pairAt N q).1 = N := by
    by_contra hne
    have hlt : (pairAt N q).1 < N := by omega
    have : (pairAt N q).1 * (pairAt N q).2 < N * N :=
      Nat.mul_lt_mul_of_lt_of_le hlt (by omega) (by omega)
    omega
  have hj : (pairAt N q).2 = N := by
    by_contra hne
    have hlt : (pairAt N q).2 < N := by omega
    have : (pairAt N q).1 * (pairAt N q).2 < N * N :=
      Nat.mul_lt_mul_of_le_of_lt (by omega) hlt (by omega)
    omega
  have hpair : pairAt N q = pairAt N k := by
    rw [hlast]; exact Prod.ext hi hj
  have := pairAt_inj hqC (by omega) hpair
  omega

/-- A single process whose chunk is one cell short of `cells` prints one less
than the number of distinct products. -/
theorem report_single_short {N k : Nat} (hN1 : 1 ≤ N) (hN : N ≤ 262143)
    (hk : chunk_sizes N 1 0 = k) (hC : colStart N N = k + 1) :
    ∃ c, report N 1 = some c ∧ c + 1 = distinctCount N := by
  refine ⟨_, report_single_process hN (by omega), ?_⟩
  have h := card_without_last hN1
  have e : colStart N N - 1 = k := by omega
  rw [e] at h
  rw [hk]
  exact h

/-- With one process and an exact partition (`N ≤ 5792`) the printed count
is the number of distinct products. -/
theorem report_single_exact {N : Nat} (hN : N ≤ 5792) : report N 1 = some (distinctCount N) := by
  have hN32 : N < 2 ^ 32 := by omega
  have hC : cells N < 2 ^ 24 := by
    rw [cells_eq hN32]
    have : N * (N + 1) ≤ 5792 * 5793 := Nat.mul_le_mul hN (by omega)
    omega
  have hk : chunk_sizes N 1 0 = colStart N N := by
    rw [chunk_sizes_exact hC le_rfl, ← cells_eq_colStart hN32, Nat.div_one, Nat.mod_one]
    simp
  rw [report_single_process (by omega) (by omega), hk]
  unfold distinctCount
  rw [products_eq_image]

/-- C14 (failing input): with `N = 5793` and one process the chunk has
16782320 cells, one less than `cells = 16782321`, so the pair `(5793, 5793)`
is never reached and the printed count is one less than the number of
distinct products. -/
theorem report_5793_single_misses_one :
    chunk_sizes 5793 1 0 = 16782320 ∧ cells 5793 = 16782321 ∧
    ∃ c, report 5793 1 = some c ∧ c + 1 = distinctCount 5793 :=
  ⟨by decide, by decide,
    report_single_short (k := 16782320) (by decide) (by decide) (by decide)
      (by rw [colStart_full])⟩
theorem colStart_le_of_le (N : Nat) {a b : Nat} (h : a ≤ b) : colStart N a ≤ colStart N b := by
  induction b with
  | zero => have : a = 0 := by omega
            subst this; exact le_rfl
  | succ b ih =>
    by_cases hab : a = b + 1
    · subst hab; exact le_rfl
    · exact le_trans (ih (by omega)) (colStart_mono N b)

theorem colStart_closed {N m : Nat} (h : m ≤ N) : colStart N m = m * (2 * N + 1 - m) / 2 := by
  have e := colStart_formula N m h
  obtain ⟨k, rfl⟩ : ∃ k, N = m + k := ⟨N - m, by omega⟩
  have e1 : 2 * (m + k) + 1 - m = m + 2 * k + 1 := by omega
  rw [e1]
  have e2 : m * (m + 2 * k + 1) = 2 * colStart (m + k) m := by
    have : 2 * m * (m + k) + m = m * (m + 2 * k + 1) + m * m := by ring
    omega
  rw [e2]
  omega

theorem map_pairAt_prefix (N : Nat) : ∀ m, m ≤ N →
    (List.range (colStart N m)).map (pairAt N) =
      (List.range m).flatMap (fun c => (List.range (N - c)).map (fun d => (c + 1 + d, c + 1))) := by
  intro m
  induction m with
  | zero => intro _; rfl
  | succ m ih =>
    intro hm
    rw [List.range_succ, List.flatMap_append, ← ih (by omega)]
    simp only [colStart, List.flatMap_singleton]
    rw [List.range_add, List.map_append, List.map_map]
    congr 1
    apply List.map_congr_left
    intro d hd
    rw [List.mem_range] at hd
    simp only [Function.comp]
    exact pairAt_col N m d (by omega)

theorem enumeration_eq (N : Nat) :
    enumeration N =
      (List.range N).flatMap (fun c => (List.range (N - c)).map (fun d => (c + 1 + d, c + 1))) := by
  unfold enumeration
  rw [List.range'_eq_map_range, List.flatMap_map]
  apply List.flatMap_congr
  intro c hc
  rw [List.mem_range] at hc
  rw [List.range'_eq_map_range, List.map_map]
  have e : N + 1 - (1 + c) = N - c := by omega
  rw [e]
  apply List.map_congr_left
  intro d _
  simp only [Function.comp]
  rw [Nat.add_comm 1 c]

/-- C15: for every `N` and `p < C = N (N + 1) / 2` (so `N ≥ 1`), the pair reached by the
fast-forward loop after `p` steps is the `p`-th pair of the enumeration by
columns; its column is the unique `c` in `1 .. N` with
`(c-1)(2N-c+2)/2 ≤ p < c(2N-c+1)/2` and its row is `c + p - (c-1)(2N-c+2)/2`. -/
theorem fastForward_matches_enumeration (N p : Nat) (hp : p < N * (N + 1) / 2) :
    (enumeration N)[p]? = some (pairAt N p) ∧
    ∃ c, (1 ≤ c ∧ c ≤ N ∧ (c - 1) * (2 * N - c + 2) / 2 ≤ p ∧ p < c * (2 * N - c + 1) / 2) ∧
      pairAt N p = (c + p - (c - 1) * (2 * N - c + 2) / 2, c) ∧
      ∀ c1, (1 ≤ c1 ∧ c1 ≤ N ∧ (c1 - 1) * (2 * N - c1 + 2) / 2 ≤ p ∧
        p < c1 * (2 * N - c1 + 1) / 2) → c1 = c := by
  rw [← colStart_full] at hp
  have hlow : ∀ c, 1 ≤ c → c ≤ N → (c - 1) * (2 * N - c + 2) / 2 = colStart N (c - 1) := by
    intro c h1 h2
    rw [colStart_closed (show c - 1 ≤ N by omega)]
    congr 2
    omega
  have hup : ∀ c, c ≤ N → c * (2 * N - c + 1) / 2 = colStart N c := by
    intro c h2
    rw [colStart_closed h2]
    congr 2
    omega
  constructor
  · rw [enumeration_eq, ← map_pairAt_prefix N N le_rfl, List.getElem?_map,
      List.getElem?_range hp]
    rfl
  · obtain ⟨c0, d, hc0, hd, e⟩ := pos_decomp N N le_rfl p hp
    have hnext : colStart N (c0 + 1) = colStart N c0 + (N - c0) := rfl
    refine ⟨c0 + 1, ⟨by omega, by omega, ?_, ?_⟩, ?_, ?_⟩
    · rw [hlow (c0 + 1) (by omega) (by omega)]
      simp only [Nat.add_sub_cancel]
      omega
    · rw [hup (c0 + 1) (by omega), hnext]
      omega
    · rw [hlow (c0 + 1) (by omega) (by omega)]
      simp only [Nat.add_sub_cancel]
      rw [e, pairAt_col N c0 d hd]
      simp only [Prod.mk.injEq, and_true]
      omega
    · rintro c1 ⟨h1, h2, h3, h4⟩
      rw [hlow c1 h1 h2] at h3
      rw [hup c1 h2] at h4
      by_contra hne
      rcases Nat.lt_or_gt_of_ne hne with hlt | hgt
      · have := colStart_le_of_le N (show c1 ≤ c0 by omega)
        omega
      · have := colStart_le_of_le N (show c0 + 1 ≤ c1 - 1 by omega)
        omega

theorem fastForward_matches_enumeration_witness :
    4 < 3 * (3 + 1) / 2 ∧
    ((enumeration 3)[4]? = some (pairAt 3 4) ∧
    ∃ c, (1 ≤ c ∧ c ≤ 3 ∧ (c - 1) * (2 * 3 - c + 2) / 2 ≤ 4 ∧ 4 < c * (2 * 3 - c + 1) / 2) ∧
      pairAt 3 4 = (c + 4 - (c - 1) * (2 * 3 - c + 2) / 2, c) ∧
      ∀ c1, (1 ≤ c1 ∧ c1 ≤ 3 ∧ (c1 - 1) * (2 * 3 - c1 + 2) / 2 ≤ 4 ∧
        4 < c1 * (2 * 3 - c1 + 1) / 2) → c1 = c) :=
  ⟨by decide, fastForward_matches_enumeration 3 4 (by decide)⟩

/-- C16: for `N ≥ 1` the predicate `1 ≤ column ≤ row ≤ N` holds at `(1, 1)`,
is preserved by one advance step from every pair other than `(N, N)`, and
holds at the pair of every position `0 .. C - 1`. -/
theorem inTriangle_invariant (N : Nat) (hN : 1 ≤ N) :
    inTriangle N (1, 1) ∧
    (∀ i j, inTriangle N (i, j) → (i, j) ≠ (N, N) → inTriangle N (step N (i, j))) ∧
    (∀ p, p < N * (N + 1) / 2 → inTriangle N (pairAt N p)) := by
  refine ⟨⟨le_rfl, le_rfl, hN⟩, ?_, ?_⟩
  · rintro i j ⟨h1, h2, h3⟩ hne
    simp only at h1 h2 h3
    unfold step inTriangle
    simp only
    by_cases hi : i + 1 = N + 1
    · rw [if_pos hi]
      have hjN : j ≠ N := by
        intro hj
        apply hne
        rw [hj, show i = N by omega]
      simp only
      omega
    · rw [if_neg hi]
      simp only
      omega
  · intro p hp
    rw [← colStart_full] at hp
    exact pairAt_valid hp

theorem inTriangle_invariant_witness :
    1 ≤ 4 ∧ (inTriangle 4 (1, 1) ∧
    (∀ i j, inTriangle 4 (i, j) → (i, j) ≠ (4, 4) → inTriangle 4 (step 4 (i, j))) ∧
    (∀ p, p < 4 * (4 + 1) / 2 → inTriangle 4 (pairAt 4 p))) :=
  ⟨by decide, inTriangle_invariant 4 (by decide)⟩
/-! ## Claims on the defensive branch and on the array bounds -/

/-- The loop with the list of products returns the same array as `markLoop`,
and fails exactly when `markLoop` does. -/
theorem markRun_fst (N V : Nat) : ∀ (k i j : Nat) (A : List Nat),
    (markRun N V k i j A).map Prod.fst = markLoop N V k i j A := by
  intro k
  induction k with
  | zero => intro i j A; rfl
  | succ k ih =>
    intro i j A
    rw [markRun, markLoop]
    by_cases hd : V < (i * j) % 2 ^ 64
    · rw [if_pos hd, if_pos hd]
      cases SETBIT A (((i - 1) * (j - 1)) % 2 ^ 64) <;> rfl
    · rw [if_neg hd, if_neg hd]
      cases SETBIT A ((i * j) % 2 ^ 64) with
      | none => rfl
      | some A1 =>
        simp only
        rw [← ih]
        cases markRun N V k (step N (i, j)).1 (step N (i, j)).2 A1 <;> rfl

/-- While the positions stay inside `[0, C)` and the array holds bit `N * N`,
the marking loop computes the products of consecutive positions, does not
take the defensive branch and stays inside the array. -/
theorem markRun_spec {N : Nat} (hN : N < 2 ^ 32) :
    ∀ (k p : Nat) (A : List Nat), p + k ≤ colStart N N → N * N / 32 < A.length →
      ∃ A1, A1.length = A.length ∧
        ∀ m, markRun N (N * N) (k + m) (pairAt N p).1 (pairAt N p).2 A =
          match markRun N (N * N) m (pairAt N (p + k)).1 (pairAt N (p + k)).2 A1 with
          | none => none
          | some res => some (res.1, (List.range k).map (fun d => prodAt N (p + d)) ++ res.2) := by
  intro k
  induction k with
  | zero =>
    intro p A _ _
    refine ⟨A, rfl, ?_⟩
    intro m
    rw [Nat.zero_add, Nat.add_zero]
    cases markRun N (N * N) m (pairAt N p).1 (pairAt N p).2 A <;> rfl
  | succ k ih =>
    intro p A hp hA
    have hpv : p < colStart N N := by omega
    obtain ⟨_, hp2⟩ := prodAt_le hpv
    have hsq : N * N < 2 ^ 64 := by
      have : N * N < 2 ^ 32 * 2 ^ 32 := Nat.mul_lt_mul'' hN hN
      calc N * N < 2 ^ 32 * 2 ^ 32 := this
        _ = 2 ^ 64 := by norm_num
    have hmod : ((pairAt N p).1 * (pairAt N p).2) % 2 ^ 64 = prodAt N p :=
      Nat.mod_eq_of_lt (lt_of_le_of_lt hp2 hsq)
    have hin : prodAt N p / 32 < A.length :=
      lt_of_le_of_lt (Nat.div_le_div_right hp2) hA
    obtain ⟨A0, hA0⟩ := SETBIT_some hin
    obtain ⟨hlen0, _⟩ := SETBIT_spec hA0
    have hstep : step N (pairAt N p) = pairAt N (p + 1) := (pairAt_succ N p).symm
    obtain ⟨A1, hlen1, hrun⟩ := ih (p + 1) A0 (by omega) (by omega)
    refine ⟨A1, by omega, ?_⟩
    intro m
    rw [show k + 1 + m = (k + m) + 1 by omega, markRun, hmod, if_neg (by omega), hA0]
    simp only
    rw [show ((pairAt N p).1, (pairAt N p).2) = pairAt N p from rfl, hstep, hrun m,
      show p + 1 + k = p + (k + 1) by omega]
    have hlist : ∀ l : List Nat,
        prodAt N p :: ((List.range k).map (fun d => prodAt N (p + 1 + d)) ++ l) =
          (List.range (k + 1)).map (fun d => prodAt N (p + d)) ++ l := by
      intro l
      rw [List.range_succ_eq_map, List.map_cons, List.map_map, List.cons_append]
      congr 2
      apply List.map_congr_left
      intro d _
      simp only [Function.comp]
      congr 1
      omega
    cases markRun N (N * N) m (pairAt N (p + (k + 1))).1 (pairAt N (p + (k + 1))).2 A1 with
    | none => rfl
    | some res =>
      simp only
      rw [hlist]

/-- A single process whose chunk is one cell longer than `cells` computes the
product `(N + 1) * (N + 1)`, which is above `num_values`, in its last
iteration. -/
theorem rankProducts_overrun {N k : Nat} (hN1 : 1 ≤ N) (hN : N ≤ 370727)
    (hk : chunk_sizes N 1 0 = k + 1) (hC : colStart N N = k) :
    ∃ l, rankProducts N 1 0 = some l ∧ (N + 1) * (N + 1) ∈ l ∧
      num_values N < (N + 1) * (N + 1) := by
  have hN32 : N < 2 ^ 32 := by omega
  have hV := num_values_eq hN32
  have hlt : N * N < (N + 1) * (N + 1) := Nat.mul_lt_mul'' (by omega) (by omega)
  have hsq : (N + 1) * (N + 1) < 2 ^ 64 := by
    have : (N + 1) * (N + 1) ≤ 2 ^ 31 * 2 ^ 31 := Nat.mul_le_mul (by omega) (by omega)
    calc (N + 1) * (N + 1) ≤ 2 ^ 31 * 2 ^ 31 := this
      _ < 2 ^ 64 := by norm_num
  have hsq2 : N * N < 2 ^ 64 := lt_trans hlt hsq
  have hT : N * N / 32 < ints_in_bitarray N := by
    have hsq3 : N * N ≤ 370727 * 370727 := Nat.mul_le_mul hN hN
    rw [ints_in_bitarray_eq hN]; omega
  have h0 : start_offset N 1 0 = 0 := rfl
  have hpast : pairAt N (0 + k) = (N + 1, N + 1) := by
    have := pairAt_past N hN1 0
    rw [hC, Nat.add_zero] at this
    rw [Nat.zero_add, this]
  obtain ⟨A1, hlen1, hrun⟩ := markRun_spec hN32 k 0 (List.replicate (ints_in_bitarray N) 0)
    (by omega) (by rw [List.length_replicate]; exact hT)
  rw [List.length_replicate] at hlen1
  obtain ⟨A2, hA2⟩ := SETBIT_some (A := A1) (k := N * N) (by rw [hlen1]; exact hT)
  have hlast : markRun N (N * N) 1 (N + 1) (N + 1) A1 = some (A2, [(N + 1) * (N + 1)]) := by
    rw [markRun, Nat.mod_eq_of_lt hsq, if_pos hlt, Nat.add_sub_cancel, Nat.mod_eq_of_lt hsq2, hA2]
  refine ⟨(List.range k).map (fun d => prodAt N (0 + d)) ++ [(N + 1) * (N + 1)], ?_, ?_,
    by rw [hV]; exact hlt⟩
  · unfold rankProducts
    rw [h0, hk, hV, hrun 1, hpast]
    simp only
    rw [hlast]
  · exact List.mem_append_right _ (List.mem_singleton.2 rfl)

/-- C17 (counterexample): with `N = 5794` and one process the chunk has
16788116 cells, one more than `cells = 16788115`; after the last cell the loop
computes `5795 * 5795`, which is above `num_values`, and takes the defensive
branch. -/
theorem rankProducts_5794_exceeds_num_values :
    ∃ l, rankProducts 5794 1 0 = some l ∧ ¬ ∀ x ∈ l, x ≤ num_values 5794 := by
  obtain ⟨l, hl, hmem, hlt⟩ := rankProducts_overrun (N := 5794) (k := 16788115) (by decide)
    (by decide) (by decide) (by rw [colStart_full])
  refine ⟨l, hl, ?_⟩
  intro h
  have := h _ hmem
  omega

/-- C17 (amended): when the word count fits an `unsigned int` (`N ≤ 370727`)
and the rank's range ends inside the enumeration (`start + chunk ≤ cells`),
the marking loop stays inside the array and computes exactly the products at
the positions of the range, each at most `num_values`: the defensive branch
is not taken and all `chunk` iterations are executed. -/
theorem rankProducts_within_range (N P r : Nat) (hN : N ≤ 370727)
    (hr : start_offset N P r + chunk_sizes N P r ≤ cells N) :
    ∃ l, rankProducts N P r = some l ∧
      l = (List.range (chunk_sizes N P r)).map (fun d => prodAt N (start_offset N P r + d)) ∧
      (∀ x ∈ l, x ≤ num_values N) ∧
      l.length = chunk_sizes N P r ∧
      (localMap N P r).isSome = true := by
  have hN32 : N < 2 ^ 32 := by omega
  rw [cells_eq_colStart hN32] at hr
  have hV := num_values_eq hN32
  have hT : N * N / 32 < ints_in_bitarray N := by
    have hsq3 : N * N ≤ 370727 * 370727 := Nat.mul_le_mul hN hN
    rw [ints_in_bitarray_eq hN]; omega
  obtain ⟨A1, _, hrun⟩ := markRun_spec hN32 (chunk_sizes N P r) (start_offset N P r)
    (List.replicate (ints_in_bitarray N) 0) hr (by rw [List.length_replicate]; exact hT)
  have h0 := hrun 0
  rw [Nat.add_zero] at h0
  refine ⟨_, ?_, rfl, ?_, ?_, ?_⟩
  · unfold rankProducts
    rw [hV, h0]
    simp [markRun]
  · intro x hx
    rw [List.mem_map] at hx
    obtain ⟨d, hd, rfl⟩ := hx
    rw [List.mem_range] at hd
    rw [hV]
    exact (prodAt_le (by omega)).2
  · rw [List.length_map, List.length_range]
  · obtain ⟨A, hA, _, _⟩ := localMap_spec (P := P) (r := r) hN32 hT hr
    rw [hA]
    rfl

theorem rankProducts_within_range_witness :
    3 ≤ 370727 ∧ start_offset 3 2 1 + chunk_sizes 3 2 1 ≤ cells 3 ∧
    ∃ l, rankProducts 3 2 1 = some l ∧
      l = (List.range (chunk_sizes 3 2 1)).map (fun d => prodAt 3 (start_offset 3 2 1 + d)) ∧
      (∀ x ∈ l, x ≤ num_values 3) ∧
      l.length = chunk_sizes 3 2 1 ∧
      (localMap 3 2 1).isSome = true :=
  ⟨by decide, by decide, rankProducts_within_range 3 2 1 (by decide) (by decide)⟩

/-- With `N = 5898` and 4204 processes the float quotient gives the ranks
4138 or 4139 cells although `cells = 4204 * 4138 - 1`, so rank 4203 starts 66
positions past the last cell, on the pair `(5965, 5899)`; the defensive branch
then sets bit `5964 * 5898`, whose word is outside the array. -/
theorem localMap_5898_leaves_array : localMap 5898 4204 4203 = none := by
  have hcb : chunk_base 5898 4204 = 4138 := by decide
  have hcells : cells 5898 = 17396151 := by decide
  have hstart : start_offset 5898 4204 4203 = 17396217 := by
    rw [start_offset_lin 5898 4204 4203 (by rw [hcells]) (by rw [hcb]; norm_num), hcb]
  have hchunk : chunk_sizes 5898 4204 4203 = 4137 + 1 := by decide
  have hV : num_values 5898 = 34786404 := by decide
  have hT : ints_in_bitarray 5898 = 1087076 := by decide
  have hcol : colStart 5898 5898 = 17396151 := by rw [colStart_full]
  have hpair : pairAt 5898 17396217 = (5965, 5899) := by
    have h := pairAt_past 5898 (by norm_num) 66
    rw [hcol] at h
    exact h
  unfold localMap
  rw [hstart, hchunk, hV, hT, hpair, markLoop, if_pos (by norm_num)]
  apply SETBIT_none
  rw [List.length_replicate]
  norm_num

/-- C18 (counterexample): for `N = 370728` the word count needed for bit
`N * N` is 4294976563, which no `unsigned int` can hold (the stored value of
`ints_in_bitarray` is 9267): word `N * N / 32` is outside the array. -/
theorem ints_in_bitarray_370728_too_small :
    (¬ ∀ v, v ≤ 370728 * 370728 → v / 32 < ints_in_bitarray 370728) ∧
    (∀ T, T < 2 ^ 32 → ¬ (370728 * 370728 / 32 < T)) := by
  constructor
  · intro h
    have h1 := h (370728 * 370728) le_rfl
    have h2 : ints_in_bitarray 370728 = 9267 := by decide
    rw [h2] at h1
    omega
  · intro T hT h
    omega

/-- C18 (amended): for `N ≤ 370727` (the word count fits an `unsigned int`)
every bit index `v ≤ N * N = num_values` has its word inside an array of
`ints_in_bitarray` words, so `SETBIT` succeeds on it, and the marking loop of
a rank whose range ends inside the enumeration stays inside the array. -/
theorem ints_in_bitarray_holds_all_bits (N : Nat) (hN : N ≤ 370727) :
    num_values N = N * N ∧
    (∀ v, v ≤ N * N → v / 32 < ints_in_bitarray N) ∧
    (∀ A v, A.length = ints_in_bitarray N → v ≤ N * N → ∃ A1, SETBIT A v = some A1) ∧
    (∀ P r, start_offset N P r + chunk_sizes N P r ≤ cells N →
      ∃ A, localMap N P r = some A) := by
  have hN32 : N < 2 ^ 32 := by omega
  have hT : N * N / 32 < ints_in_bitarray N := by rw [ints_in_bitarray_eq hN]; omega
  have hall : ∀ v, v ≤ N * N → v / 32 < ints_in_bitarray N := by
    intro v hv
    exact lt_of_le_of_lt (Nat.div_le_div_right hv) hT
  refine ⟨num_values_eq hN32, hall, ?_, ?_⟩
  · intro A v hA hv
    exact SETBIT_some (by rw [hA]; exact hall v hv)
  · intro P r hr
    rw [cells_eq_colStart hN32] at hr
    obtain ⟨A, hA, _, _⟩ := localMap_spec (P := P) (r := r) hN32 hT hr
    exact ⟨A, hA⟩

theorem ints_in_bitarray_holds_all_bits_witness :
    10 ≤ 370727 ∧
    (num_values 10 = 10 * 10 ∧
    (∀ v, v ≤ 10 * 10 → v / 32 < ints_in_bitarray 10) ∧
    (∀ A v, A.length = ints_in_bitarray 10 → v ≤ 10 * 10 → ∃ A1, SETBIT A v = some A1) ∧
    (∀ P r, start_offset 10 P r + chunk_sizes 10 P r ≤ cells 10 →
      ∃ A, localMap 10 P r = some A)) :=
  ⟨by decide, ints_in_bitarray_holds_all_bits 10 (by decide)⟩

/-- The quotient rounded up is the ceiling of the exact rational quotient. -/
theorem ceilDiv_eq_ceil (a b : Nat) (hb : 0 < b) : ceilDiv a b = ⌈(a : ℚ) / (b : ℚ)⌉₊ := by
  unfold ceilDiv
  have hbq : (0 : ℚ) < (b : ℚ) := by exact_mod_cast hb
  symm
  rcases Nat.eq_zero_or_pos a with h0 | h0
  · subst h0
    simp
    exact (Nat.div_eq_of_lt (by omega)).symm
  · have hq1 := Nat.div_add_mod (a + b - 1) b
    have hq2 := Nat.mod_lt (a + b - 1) hb
    have hqpos : 0 < (a + b - 1) / b := Nat.div_pos (by omega) hb
    rw [Nat.ceil_eq_iff (by omega)]
    constructor
    · rw [lt_div_iff₀ hbq]
      have h : ((a + b - 1) / b - 1) * b < a := by
        have e : ((a + b - 1) / b - 1) * b = b * ((a + b - 1) / b) - b := by
          rw [Nat.sub_mul, Nat.mul_comm, Nat.one_mul]
        have hge : b ≤ b * ((a + b - 1) / b) := Nat.le_mul_of_pos_right b hqpos
        omega
      exact_mod_cast h
    · rw [div_le_iff₀ hbq]
      have h : a ≤ (a + b - 1) / b * b := by
        rw [Nat.mul_comm]; omega
      exact_mod_cast h

/-- C19 (failing input): for `N = 1` (`V = 1`) the program computes the word
count 1, because `num_values / 8` is an integer quotient (`0`) and the inner
`ceil` has no effect; the formula with exact divisions rounded up,
`ceil(ceil(1/8)/4) + 1`, is 2. -/
theorem ints_in_bitarray_1_differs_from_spec :
    ints_in_bitarray 1 = 1 ∧ specWordCount (1 * 1) = 2 ∧
    ⌈((⌈((1 * 1 : Nat) : ℚ) / 8⌉₊ : Nat) : ℚ) / 4⌉₊ + 1 = 2 := by
  refine ⟨by decide, by decide, ?_⟩
  have h1 := ceilDiv_eq_ceil (1 * 1) 8 (by norm_num)
  have h2 := ceilDiv_eq_ceil (ceilDiv (1 * 1) 8) 4 (by norm_num)
  have e1 : ceilDiv (1 * 1) 8 = 1 := by decide
  have e2 : ceilDiv 1 4 = 1 := by decide
  rw [e1] at h1 h2
  rw [e2] at h2
  push_cast at h1 h2 ⊢
  rw [← h1]
  push_cast
  rw [← h2]

/-- C20 (failing input): for `N = 7` the array has 3 words and `half_size` is
2, so the second transfer is performed and touches the word indices 2 and 3;
index 3 is outside the array.  The peer's second send and the coordinator's
second OR loop leave the array: the reduction with two processes is
undefined. -/
theorem reduce_7_2_leaves_array :
    ints_in_bitarray 7 = 3 ∧ half_size 7 = 2 ∧ 1 < half_size 7 ∧
    ¬ (2 * half_size 7 - 1 < ints_in_bitarray 7) ∧
    (∃ A, localMap 7 2 1 = some A ∧ readBlock A (half_size 7) (half_size 7) = none) ∧
    reduce 7 2 = none ∧ mainProc 2 7 2 1 = none := by
  refine ⟨by decide, by decide, by decide, by decide, ⟨[1396019200, 132120, 0], by decide, by decide⟩,
    by decide, by decide⟩

end MulTable
